import Mathlib

/-!
Verification development for the file-synchronizer repository.

The definitions below are a shallow embedding of the JavaScript sources:
  - `src/server/src/storage/metadata-storage.js` (metadata store, conflict store)
  - `src/server/src/storage/file-storage.js` (content store)
  - `src/server/src/api/server.js` (HTTP endpoints: upload-safe, chunk,
    download, delete, resolve)
  - `src/client/src/sync/sync-manager.js` (client reconciliation decisions)

Conventions of the embedding:
  - byte buffers are `List Nat`;
  - checksums are produced by an abstract `hash : List Nat → String`
    parameter standing for the md5 hex digest;
  - timestamps (`Date.now()`, `new Date(x).getTime()`) are `Int`
    milliseconds;
  - random ids (`crypto.randomBytes(8).toString('hex')`) are supplied by an
    explicit `genId : Nat → String` parameter (one index per generation
    site inside a request);
  - the JSON metadata array, the conflicts array, the content directory,
    the versions directory and the in-memory upload window are association
    lists inside a `ServerState`.
-/

/-- A version (metadata) record, one JSON object of the metadata store.
Optional JSON keys become `Option`/default fields. -/
structure Meta where
  fileId : String
  fileName : String
  version : Nat
  size : Nat
  checksum : String
  clientId : String
  lastModified : Int
  conflict : Bool := false
  conflictedWith : Option String := none
  restoredFrom : Option Nat := none
  uploadType : Option String := none
  createdAt : Option Int := none
  updatedAt : Option Int := none
deriving Repr, DecidableEq

/-- The resolution object passed to `resolveConflict`
(`{method, keepVersion, resolvedBy}` in `server.js`). -/
structure Resolution where
  method : String
  keepVersion : Option Nat := none
  resolvedBy : String := "manual"
deriving Repr, DecidableEq

/-- A conflict record of the conflict store.  Carries both the shapes
produced by `detectConflict` (existing/incoming) and by the upload-safe
window engine (winner/losers/allClients). -/
structure ConflictRec where
  id : String
  fileName : String
  reason : String := ""
  conflictType : String := ""
  winner : Option Meta := none
  losers : List (Meta × String) := []
  existing : Option Meta := none
  incoming : Option Meta := none
  allClients : List String := []
  timestamp : Int := 0
  status : String := "unresolved"
  resolution : Option Resolution := none
  resolvedAt : Option Int := none
deriving Repr, DecidableEq

/-- An entry of the in-memory upload window (`global.recentUploads`)
of the upload-safe endpoint. -/
structure WinEntry where
  clientId : String
  lastModified : Int
  checksum : String
  buffer : List Nat
  fileId : String
  timestamp : Int
deriving Repr, DecidableEq

/-- The server-side persistent and in-memory state touched by the
embedded endpoints. -/
structure ServerState where
  /-- current blobs, `files/<name>` -/
  files : List (String × List Nat) := []
  /-- versioned blobs, `versions/<name>.v<N>`, keyed by (name, version) -/
  versions : List ((String × Nat) × List Nat) := []
  /-- the metadata array (`file-metadata.json`) -/
  metadata : List Meta := []
  /-- the conflicts array (`conflicts.json`) -/
  conflicts : List ConflictRec := []
  /-- the per-process upload window, keyed by file name -/
  window : List (String × List WinEntry) := []
deriving Repr, DecidableEq

/-- Association-list lookup (first match wins). -/
def alookup {κ β : Type} [DecidableEq κ] (l : List (κ × β)) (k : κ) : Option β :=
  (l.find? (fun p => p.1 = k)).map (·.2)

/-- Association-list update: replace the value of an existing key in
place, or append a new binding at the end (JS `Map.set` / overwriting a
file under a fixed path). -/
def aset {κ β : Type} [DecidableEq κ] (l : List (κ × β)) (k : κ) (v : β) : List (κ × β) :=
  if l.any (fun p => p.1 = k) then
    l.map (fun p => if p.1 = k then (k, v) else p)
  else
    l ++ [(k, v)]

/-! ## Metadata store (`metadata-storage.js`) -/

/-- `getLatestVersion(fileName)`: filter the records by name and take the
JS `reduce((latest, current) => current.version > latest.version ? current : latest)`
over them; `null` when the name has no records. -/
def metaGetLatest (ms : List Meta) (name : String) : Option Meta :=
  match ms.filter (fun m => m.fileName = name) with
  | [] => none
  | x :: xs =>
      some (xs.foldl (fun latest current =>
        if current.version > latest.version then current else latest) x)

/-- `getNextVersion(fileName) = latest.version + 1 | 1`. -/
def metaNextVersion (ms : List Meta) (name : String) : Nat :=
  match metaGetLatest ms name with
  | some l => l.version + 1
  | none => 1

/-- `detectConflict(incoming)`: compares against the latest version of the
same name; a conflict iff the timestamps are within 5000 ms, the client
ids differ and the checksums differ.  `freshId` stands for the random id
given to the produced conflict record, `now` for `new Date()`. -/
def detectConflict (ms : List Meta) (incoming : Meta) (freshId : String) (now : Int) :
    Option ConflictRec :=
  match metaGetLatest ms incoming.fileName with
  | none => none
  | some latest =>
      if (incoming.lastModified - latest.lastModified).natAbs < 5000 ∧
         incoming.clientId ≠ latest.clientId ∧
         incoming.checksum ≠ latest.checksum then
        some { id := freshId
               fileName := incoming.fileName
               reason := "Simultaneous modification detected"
               conflictType := "concurrent_modification"
               existing := some latest
               incoming := some incoming
               timestamp := now
               status := "unresolved" }
      else none

/-- `saveConflict(conflict)`: append unless a conflict with the same id is
already stored. -/
def saveConflict (cs : List ConflictRec) (c : ConflictRec) : List ConflictRec :=
  if cs.any (fun x => x.id = c.id) then cs else cs ++ [c]

/-- The defaulting performed by `saveMetadata` before writing
(`version: metadata.version || 1`, `createdAt: metadata.createdAt || now`,
`updatedAt: now`; the remaining `||` defaults concern fields that are
always present in this closed record type). -/
def normalizeMeta (m : Meta) (now : Int) : Meta :=
  { m with version := if m.version = 0 then 1 else m.version
           createdAt := some (m.createdAt.getD now)
           updatedAt := some now }

/-- `saveMetadata(metadata)`: run `detectConflict`; on a conflict, save it
to the conflict store and throw (`.error` carries the conflict and the
updated conflict store).  Otherwise normalize the record and either
replace the record with the same `(fileId, version)` or push.  (For this
closed field set the JS spread-merge on replacement equals the new
record.) -/
def saveMetadataCore (ms : List Meta) (cs : List ConflictRec) (m : Meta)
    (freshId : String) (now : Int) :
    Except (ConflictRec × List ConflictRec) (Meta × List Meta) :=
  match detectConflict ms m freshId now with
  | some c => .error (c, saveConflict cs c)
  | none =>
      let newMeta := normalizeMeta m now
      match ms.findIdx? (fun item => item.fileId = m.fileId ∧ item.version = m.version) with
      | some i => .ok (newMeta, ms.set i newMeta)
      | none => .ok (newMeta, ms ++ [newMeta])

/-- `resolveConflict(conflictId, resolution)`: find the first conflict
with the id, set `status = "resolved"`, `resolution`, `resolvedAt`;
`none` models the `Conflict not found` throw. -/
def resolveConflictList : List ConflictRec → String → Resolution → Int →
    Option (ConflictRec × List ConflictRec)
  | [], _, _, _ => none
  | c :: rest, cid, r, now =>
      if c.id = cid then
        let c' := { c with status := "resolved", resolution := some r, resolvedAt := some now }
        some (c', c' :: rest)
      else
        match resolveConflictList rest cid r now with
        | none => none
        | some (c', rest') => some (c', c :: rest')

/-- `deleteMetadata(fileId)`. -/
def deleteMetadataById (ms : List Meta) (fid : String) : List Meta :=
  ms.filter (fun item => item.fileId ≠ fid)

/-- `deleteMetadataByFileName(fileName)`. -/
def deleteMetadataByName (ms : List Meta) (name : String) : List Meta :=
  ms.filter (fun item => item.fileName ≠ name)

/-- `renameFileMetadata(oldName, newName)`. -/
def renameMetadata (ms : List Meta) (oldName newName : String) : List Meta :=
  ms.map (fun item => if item.fileName = oldName then { item with fileName := newName } else item)

/-! ## Content store (`file-storage.js`) -/

/-- `saveFile(fileName, fileBuffer, version)`: write the current blob and
the versioned copy, return `{checksum, size}` (paths are implicit in the
state).  `hash` stands for `calculateChecksum` (md5 hex). -/
def storageSaveFile (hash : List Nat → String) (s : ServerState)
    (fileName : String) (buf : List Nat) (version : Nat) :
    (String × Nat) × ServerState :=
  ((hash buf, buf.length),
   { s with files := aset s.files fileName buf
            versions := aset s.versions (fileName, version) buf })

/-- `getFile(fileName, version)`: with a truthy version (JS: `0` is
falsy), read the versioned blob or throw; otherwise read the current blob
or throw `File not found`. -/
def storageGetFile (s : ServerState) (fileName : String) (version : Option Nat) :
    Except String (List Nat) :=
  let readCurrent : Except String (List Nat) :=
    match alookup s.files fileName with
    | some buf => .ok buf
    | none => .error "File not found"
  match version with
  | some v =>
      if v ≠ 0 then
        match alookup s.versions (fileName, v) with
        | some buf => .ok buf
        | none => .error ("Version " ++ toString v ++ " of file " ++ fileName ++ " not found")
      else readCurrent
  | none => readCurrent

/-- `deleteFile(fileName)` with no version and `deleteAllVersions=false`:
remove the current blob only; `Bool` is the returned existed-flag. -/
def storageDeleteFile (s : ServerState) (fileName : String) : Bool × ServerState :=
  if (alookup s.files fileName).isSome then
    (true, { s with files := s.files.filter (fun p => p.1 ≠ fileName) })
  else
    (false, s)

/-! ## Server endpoint helpers (`server.js`) -/

/-- Stable descending insertion by `version`; models the JS stable
`sort((a, b) => b.version - a.version)`. -/
def insertByVersionDesc (m : Meta) : List Meta → List Meta
  | [] => [m]
  | x :: xs => if m.version ≥ x.version then m :: x :: xs else x :: insertByVersionDesc m xs

/-- `getAllVersions(fileName)` as the endpoints see it: filter by name,
sort by version descending (stable). -/
def getAllVersions (ms : List Meta) (name : String) : List Meta :=
  (ms.filter (fun m => m.fileName = name)).foldr insertByVersionDesc []

/-- The endpoints' `allVersions.reduce((a, b) => a.version > b.version ? a : b)`. -/
def reduceLatest (x : Meta) (xs : List Meta) : Meta :=
  xs.foldl (fun a b => if a.version > b.version then a else b) x

/-- The latest-version record as computed inline by the upload endpoints
(`getAllVersions` + `reduce`); `none` when the name has no records. -/
def latestOf (ms : List Meta) (name : String) : Option Meta :=
  match getAllVersions ms name with
  | [] => none
  | x :: xs => some (reduceLatest x xs)

/-! ## Conflict file names

`` `${fileName.replace(/(\.[^\.]+)?$/, '')}_conflicted_by_${clientId}${path.extname(fileName)}` ``

The regex deletes from the last `'.'` of the name onward, provided at
least one non-dot character follows it (otherwise only the empty match at
the end of the string succeeds and the name is unchanged). -/

/-- Index (in characters) of the last `'.'` of a character list. -/
def lastDotIdx (cs : List Char) : Option Nat :=
  cs.reverse.findIdx? (fun c => c = '.') |>.map (fun i => cs.length - 1 - i)

/-- `fileName.replace(/(\.[^\.]+)?$/, '')`. -/
def jsStripExt (s : String) : String :=
  let cs := s.data
  match lastDotIdx cs with
  | some i => if i + 1 < cs.length then String.mk (cs.take i) else s
  | none => s

/-- Node's `path.extname` on a plain file name (no directory separators):
the substring from the last `'.'`, empty when there is no dot or the only
dot is the leading character. -/
def jsExtname (s : String) : String :=
  let cs := s.data
  match lastDotIdx cs with
  | some i => if i = 0 then "" else String.mk (cs.drop i)
  | none => ""

/-- The conflict file name allocated for a losing client. -/
def conflictFileNameOf (fileName clientId : String) : String :=
  jsStripExt fileName ++ "_conflicted_by_" ++ clientId ++ jsExtname fileName

/-! ## Upload window (`/files/upload-safe`) -/

/-- `SYNC_INTERVAL_MS`. -/
def SYNC_INTERVAL_MS : Int := 10000

/-- Garbage collection of `global.recentUploads`: drop entries older than
the window, drop emptied keys. -/
def gcWindow (w : List (String × List WinEntry)) (now : Int) : List (String × List WinEntry) :=
  (w.map (fun p => (p.1, p.2.filter (fun e => now - e.timestamp ≤ SYNC_INTERVAL_MS)))).filter
    (fun p => ¬ p.2.isEmpty)

/-- The dedup filter
`arr.filter((entry, idx, self) => idx === self.findIndex(e => e.clientId === entry.clientId && e.checksum === entry.checksum))`:
keep the first occurrence of each `(clientId, checksum)` pair. -/
def dedupeEntries (seen : List (String × String)) : List WinEntry → List WinEntry
  | [] => []
  | e :: rest =>
      if (e.clientId, e.checksum) ∈ seen then dedupeEntries seen rest
      else e :: dedupeEntries ((e.clientId, e.checksum) :: seen) rest

/-- Stable ascending insertion by `lastModified`; models the JS stable
`sort((a, b) => new Date(a.lastModified).getTime() - new Date(b.lastModified).getTime())`. -/
def insertByLastModifiedAsc (e : WinEntry) : List WinEntry → List WinEntry
  | [] => [e]
  | x :: xs =>
      if e.lastModified ≤ x.lastModified then e :: x :: xs
      else x :: insertByLastModifiedAsc e xs

/-- Stable sort of the window candidates by `lastModified`, earliest first. -/
def sortByLastModifiedAsc (l : List WinEntry) : List WinEntry :=
  l.foldr insertByLastModifiedAsc []

/-! ## `POST /files/upload-safe` -/

/-- Responses of the upload-safe endpoint (HTTP status in
`uploadRespStatus`). -/
inductive UploadResp
  /-- 400, missing required fields -/
  | badRequest
  /-- 200, `File already up-to-date, no new version created` -/
  | upToDate (version : Nat) (meta : Meta)
  /-- 200, plain `File uploaded successfully` -/
  | okUpload (version : Nat) (meta : Meta)
  /-- 200 for the winning client of a window conflict -/
  | winnerOk (version : Nat) (meta : Meta) (conflictId : String)
  /-- 409 for a losing client of a window conflict -/
  | loser409 (winnerClientId : String) (winnerLastModified : Int)
      (conflictFileName : Option String) (conflictId : String)
  /-- 500, uncaught throw (in particular a `Conflict detected` throw of
      `saveMetadata`, which this endpoint does not map to 409) -/
  | err500 (msg : String)
deriving Repr, DecidableEq

/-- HTTP status of an upload-safe response. -/
def uploadRespStatus : UploadResp → Nat
  | .badRequest => 400
  | .upToDate _ _ => 200
  | .okUpload _ _ => 200
  | .winnerOk _ _ _ => 200
  | .loser409 _ _ _ _ => 409
  | .err500 _ => 500

/-- The window entry pushed for an incoming safe upload. -/
def mkWinEntry (clientId : String) (lastModified : Int) (checksum : String)
    (buf : List Nat) (fileId : String) (now : Int) : WinEntry :=
  { clientId := clientId, lastModified := lastModified, checksum := checksum
    buffer := buf, fileId := fileId, timestamp := now }

/-- Winner materialization: reuse the latest version when its checksum
already equals the winner's; otherwise allocate the next version, save the
blob and save the metadata record (whose `detectConflict` may throw:
`.error` carries the state after the partial writes). -/
def materializeWinner (hash : List Nat → String) (genId : Nat → String) (now : Int)
    (s : ServerState) (fileName : String) (winner : WinEntry) :
    Except ServerState (Meta × ServerState) :=
  let winnerChecksum := hash winner.buffer
  let saveNew : Except ServerState (Meta × ServerState) :=
    let next := metaNextVersion s.metadata fileName
    let res := storageSaveFile hash s fileName winner.buffer next
    let s1 := res.2
    match saveMetadataCore s1.metadata s1.conflicts
        { fileId := winner.fileId, fileName := fileName, version := next
          size := winner.buffer.length, checksum := winnerChecksum
          clientId := winner.clientId, lastModified := winner.lastModified }
        (genId 2) now with
    | .error e => .error { s1 with conflicts := e.2 }
    | .ok r => .ok (r.1, { s1 with metadata := r.2 })
  match latestOf s.metadata fileName with
  | some latestMeta =>
      if latestMeta.checksum = winnerChecksum then .ok (latestMeta, s) else saveNew
  | none => saveNew

/-- The loser loop: for each loser allocate the conflict file name and the
next version under it, save the blob, save a metadata record with
`conflict=true` and `conflictedWith=fileName`.  A `Conflict detected`
throw of `saveMetadata` aborts the loop (`.error` carries the state after
the partial writes).  `i` numbers the id-generation sites. -/
def saveLosers (hash : List Nat → String) (genId : Nat → String) (now : Int)
    (fileName : String) :
    ServerState → List WinEntry → Nat → Except ServerState (List (Meta × String) × ServerState)
  | s, [], _ => .ok ([], s)
  | s, loser :: rest, i =>
      let cfn := conflictFileNameOf fileName loser.clientId
      let cv := metaNextVersion s.metadata cfn
      let res := storageSaveFile hash s cfn loser.buffer cv
      let s1 := res.2
      match saveMetadataCore s1.metadata s1.conflicts
          { fileId := loser.fileId, fileName := cfn, version := cv
            size := loser.buffer.length, checksum := hash loser.buffer
            clientId := loser.clientId, lastModified := loser.lastModified
            conflict := true, conflictedWith := some fileName }
          (genId (3 + i)) now with
      | .error e => .error { s1 with conflicts := e.2 }
      | .ok r =>
          match saveLosers hash genId now fileName { s1 with metadata := r.2 } rest (i + 1) with
          | .error s' => .error s'
          | .ok r' => .ok ((r.1, cfn) :: r'.1, r'.2)

/-- The multi-candidate branch of the upload-safe endpoint: materialize
the winner, save the losers, record the conflict entry, answer 200 to the
winning client and 409 to a losing one. -/
def uploadSafeConflict (hash : List Nat → String) (genId : Nat → String) (now : Int)
    (s1 : ServerState) (fileName clientId : String)
    (winner : WinEntry) (losers : List WinEntry) : UploadResp × ServerState :=
  match materializeWinner hash genId now s1 fileName winner with
  | .error sErr => (.err500 "Conflict detected", sErr)
  | .ok (winnerMeta, s2) =>
      match saveLosers hash genId now fileName s2 losers 0 with
      | .error sErr => (.err500 "Conflict detected", sErr)
      | .ok (loserMetas, s3) =>
          let conflictEntry : ConflictRec :=
            { id := genId 1
              fileName := fileName
              reason := "Simultaneous modification detected"
              conflictType := "multi_client_concurrent_modification"
              winner := some winnerMeta
              losers := loserMetas
              allClients := winnerMeta.clientId :: loserMetas.map (fun p => p.1.clientId)
              timestamp := now
              status := "unresolved" }
          let s4 := { s3 with conflicts := saveConflict s3.conflicts conflictEntry }
          if clientId = winnerMeta.clientId then
            (.winnerOk winnerMeta.version winnerMeta conflictEntry.id, s4)
          else
            let myMeta := loserMetas.find? (fun p => p.1.clientId = clientId)
            (.loser409 winnerMeta.clientId winnerMeta.lastModified
              (myMeta.map (·.2)) conflictEntry.id, s4)

/-- The window phase of the upload-safe endpoint (after the idempotent
short-circuit): garbage-collect the window, push the incoming entry,
dedupe by `(clientId, checksum)`; with ≥ 2 unique pairs run the conflict
branch on the candidates sorted by `lastModified` ascending, otherwise
allocate the next version and save normally. -/
def uploadSafeWindow (hash : List Nat → String) (genId : Nat → String) (now : Int)
    (s : ServerState) (fileName clientId : String) (metadata : Meta) (buf : List Nat) :
    UploadResp × ServerState :=
  let w1 := gcWindow s.window now
  let arr := (alookup w1 fileName).getD []
  let entry := mkWinEntry clientId metadata.lastModified metadata.checksum buf metadata.fileId now
  let newArr := arr ++ [entry]
  let s1 := { s with window := aset w1 fileName newArr }
  let allCandidates := dedupeEntries [] newArr
  if allCandidates.length > 1 then
    match sortByLastModifiedAsc allCandidates with
    | [] => (.err500 "empty candidates", s1)  -- unreachable: length > 1
    | winner :: losers => uploadSafeConflict hash genId now s1 fileName clientId winner losers
  else
    let next := metaNextVersion s1.metadata fileName
    let res := storageSaveFile hash s1 fileName buf next
    let s2 := res.2
    match saveMetadataCore s2.metadata s2.conflicts
        { metadata with version := next, size := res.1.2, checksum := res.1.1 }
        (genId 1) now with
    | .error e => (.err500 "Conflict detected", { s2 with conflicts := e.2 })
    | .ok r => (.okUpload next r.1, { s2 with metadata := r.2 })

/-- `POST /files/upload-safe`.  `genId 0` is the fresh `fileId` of the
request, `lastModifiedRaw = none` models a missing/falsy `lastModified`
field (defaulted to `now`). -/
def uploadSafe (hash : List Nat → String) (genId : Nat → String) (now : Int)
    (s : ServerState) (fileName clientId : String) (lastModifiedRaw : Option Int)
    (buf : List Nat) : UploadResp × ServerState :=
  if fileName = "" ∨ clientId = "" then (.badRequest, s)
  else
    let checksum := hash buf
    let metadata : Meta :=
      { fileId := genId 0, fileName := fileName, version := 0, size := buf.length
        checksum := checksum, clientId := clientId
        lastModified := lastModifiedRaw.getD now }
    match latestOf s.metadata fileName with
    | some latestMeta =>
        if latestMeta.checksum = checksum then
          (.upToDate latestMeta.version latestMeta, s)
        else
          uploadSafeWindow hash genId now s fileName clientId metadata buf
    | none => uploadSafeWindow hash genId now s fileName clientId metadata buf

/-! ## `POST /files/chunk` -/

/-- Responses of the chunk endpoint. -/
inductive ChunkResp
  /-- 400, missing required fields -/
  | badRequest
  /-- 200, `Chunk n received` (not all parts present yet) -/
  | received (chunkNumber : Nat)
  /-- 200, duplicate content or duplicate fileId: no new version -/
  | duplicate (version : Nat) (msg : String)
  /-- 200, `File assembled successfully` -/
  | assembled (version : Nat)
  /-- 409, `Conflict detected` thrown by `saveMetadata` -/
  | conflict409
  /-- 500, missing/corrupt chunk during assembly -/
  | err500 (msg : String)
deriving Repr, DecidableEq

/-- Scratch name of a part: `` `${fileId}_${chunkNumber}` ``. -/
def chunkName (fileId : String) (n : Nat) : String :=
  fileId ++ "_" ++ toString n

/-- JS `String.prototype.startsWith` on the character lists. -/
def charsStartWith : List Char → List Char → Bool
  | _, [] => true
  | [], _ :: _ => false
  | c :: cs, p :: ps => c == p && charsStartWith cs ps

/-- `f.startsWith(fileId + "_")` of the chunk endpoint. -/
def strStartsWith (s pre : String) : Bool := charsStartWith s.data pre.data

/-- The assembly loop `for (let i = 1; i <= totalChunks; i++)`: read part
`lo`, fail when absent or empty, recurse for the remaining `n` parts. -/
def assembleRange (chunks : List (String × List Nat)) (fileId : String) :
    Nat → Nat → Except String (List (List Nat))
  | _, 0 => .ok []
  | lo, n + 1 =>
      match alookup chunks (chunkName fileId lo) with
      | none => .error ("Missing chunk file: " ++ chunkName fileId lo)
      | some part =>
          if part.length = 0 then .error ("Corrupt or empty chunk: " ++ chunkName fileId lo)
          else
            match assembleRange chunks fileId (lo + 1) n with
            | .error e => .error e
            | .ok rest => .ok (part :: rest)

/-- The cleanup loop: remove parts `1..total` of a fileId from scratch. -/
def removeChunks (chunks : List (String × List Nat)) (fileId : String) (total : Nat) :
    List (String × List Nat) :=
  (List.range total).foldl
    (fun acc i => acc.filter (fun p => p.1 ≠ chunkName fileId (i + 1))) chunks

/-- The tail of the chunk endpoint once both duplicate checks have passed:
allocate the next version, save the blob, save the metadata (a `Conflict
detected` throw maps to 409 and skips the chunk cleanup). -/
def chunkFinishSave (hash : List Nat → String) (genId : Nat → String) (now : Int)
    (s : ServerState) (chunks1 : List (String × List Nat))
    (fileId : String) (totalChunks : Nat) (fileName clientId : String)
    (lastModifiedRaw : Option Int) (completeBuffer : List Nat) :
    ChunkResp × ServerState × List (String × List Nat) :=
  let next := metaNextVersion s.metadata fileName
  let res := storageSaveFile hash s fileName completeBuffer next
  let s1 := res.2
  match saveMetadataCore s1.metadata s1.conflicts
      { fileId := fileId, fileName := fileName, version := next
        size := res.1.2, checksum := res.1.1, clientId := clientId
        lastModified := lastModifiedRaw.getD now, uploadType := some "chunked" }
      (genId 0) now with
  | .error e => (.conflict409, { s1 with conflicts := e.2 }, chunks1)
  | .ok r => (.assembled next, { s1 with metadata := r.2 },
      removeChunks chunks1 fileId totalChunks)

/-- `POST /files/chunk`: write the part to scratch; when the number of
scratch parts prefixed `<fileId>_` equals `totalChunks`, assemble in
numeric order, short-circuit on the two duplicate checks (same checksum
as the latest version; same fileId already processed), else save the next
version.  (The HTTP layer passes `chunkNumber`/`totalChunks` as nonempty
decimal strings; the embedding takes them as `Nat`.) -/
def chunkUpload (hash : List Nat → String) (genId : Nat → String) (now : Int)
    (s : ServerState) (chunks : List (String × List Nat))
    (fileId : String) (chunkNumber totalChunks : Nat) (fileName clientId : String)
    (lastModifiedRaw : Option Int) (buf : List Nat) :
    ChunkResp × ServerState × List (String × List Nat) :=
  if fileId = "" ∨ fileName = "" then (.badRequest, s, chunks)
  else
    let chunks1 := aset chunks (chunkName fileId chunkNumber) buf
    let forFile := chunks1.filter (fun p => strStartsWith p.1 (fileId ++ "_"))
    if forFile.length = totalChunks then
      match assembleRange chunks1 fileId 1 totalChunks with
      | .error msg => (.err500 msg, s, chunks1)
      | .ok parts =>
          let completeBuffer := parts.flatten
          let checksum := hash completeBuffer
          let allVersions := getAllVersions s.metadata fileName
          match allVersions with
          | x :: xs =>
              let latestMeta := reduceLatest x xs
              if latestMeta.checksum = checksum then
                (.duplicate latestMeta.version "File already up-to-date, no new version created",
                 s, removeChunks chunks1 fileId totalChunks)
              else
                match allVersions.find? (fun v => v.fileId = fileId) with
                | some sameId =>
                    if sameId.checksum = checksum then
                      (.duplicate sameId.version "File already processed with this fileId",
                       s, removeChunks chunks1 fileId totalChunks)
                    else
                      chunkFinishSave hash genId now s chunks1 fileId totalChunks
                        fileName clientId lastModifiedRaw completeBuffer
                | none =>
                    chunkFinishSave hash genId now s chunks1 fileId totalChunks
                      fileName clientId lastModifiedRaw completeBuffer
          | [] =>
              chunkFinishSave hash genId now s chunks1 fileId totalChunks
                fileName clientId lastModifiedRaw completeBuffer
    else (.received chunkNumber, s, chunks1)

/-! ## Download, delete and resolve endpoints -/

/-- `GET /files/:fileName/download`: status and body.  `getFile` throws
`File not found` for an absent current blob, which the handler's `catch`
maps to 500; the handler's own `if (!fileBuffer) ... 404` branch is
unreachable because `getFile` never resolves to a null value. -/
def downloadCurrent (s : ServerState) (fileName : String) : Nat × Option (List Nat) :=
  match storageGetFile s fileName none with
  | .ok buf => (200, some buf)
  | .error _ => (500, none)

/-- `GET /files/:fileName/versions/:version/download`: the handler's
`catch` maps any throw (in particular an absent version) to 404. -/
def downloadVersion (s : ServerState) (fileName : String) (version : Nat) :
    Nat × Option (List Nat) :=
  match storageGetFile s fileName (some version) with
  | .ok buf => (200, some buf)
  | .error _ => (404, none)

/-- `DELETE /files/:fileName`: `fileStorage.deleteFile(fileName)` (current
blob only); 200 on success, 404 when the current blob is absent. -/
def deleteFileEndpoint (s : ServerState) (fileName : String) : Nat × ServerState :=
  let res := storageDeleteFile s fileName
  if res.1 then (200, res.2) else (404, res.2)

/-- `POST /conflicts/:conflictId/resolve`: 400 without a resolution
method, 500 (`Conflict not found` throw) for an unknown id, else resolve
and 200. -/
def resolveEndpoint (s : ServerState) (conflictId : String) (r : Option Resolution)
    (now : Int) : Nat × ServerState :=
  match r with
  | none => (400, s)
  | some resolution =>
      match resolveConflictList s.conflicts conflictId resolution now with
      | none => (500, s)
      | some p => (200, { s with conflicts := p.2 })

/-! ## Client reconciliation (`sync-manager.js`, `compareAndSync` step 3):
local files absent from the server listing -/

/-- Decision taken for one local file in the local-not-on-server loop. -/
inductive LocalAction
  | upload
  | removeLocal
  | skip
deriving Repr, DecidableEq

/-- The loop body: for a local file that is not in the server map, not
recently deleted and not pending deletion, compute
`fileAge = Date.now() - lastModified` and upload when `fileAge < 5000`,
otherwise remove the local file. -/
def localNotOnServerAction (serverNames recentlyDeleted pendingDeletions : List String)
    (now : Int) (name : String) (lastModified : Int) : LocalAction :=
  if ¬ serverNames.contains name ∧ ¬ recentlyDeleted.contains name ∧
     ¬ pendingDeletions.contains name then
    if now - lastModified < 5000 then .upload else .removeLocal
  else .skip

/-- Modelled from the spec: the reconciliation decision as §4.7 step 5 of
the spec describes it (the code in `compareAndSync` has neither the
first-sync disjunct nor the ≈60 s grace; this definition follows the
spec's words for comparison):  "If this is the first sync after startup
or file age < grace (≈ 60 s), upload it; else remove locally." -/
def localNotOnServerActionSpec (isFirstSync : Bool)
    (serverNames recentlyDeleted pendingDeletions : List String)
    (now : Int) (name : String) (lastModified : Int) : LocalAction :=
  if ¬ serverNames.contains name ∧ ¬ recentlyDeleted.contains name ∧
     ¬ pendingDeletions.contains name then
    if isFirstSync ∨ now - lastModified < 60000 then .upload else .removeLocal
  else .skip

/-! ## Step relations over the stores

Used to state reachability/invariant claims about the metadata and
conflict stores. -/

/-- One operation on the conflicts array: `saveConflict` or a successful
`resolveConflict`. -/
inductive ConflictStep : List ConflictRec → List ConflictRec → Prop
  | save (cs : List ConflictRec) (c : ConflictRec) : ConflictStep cs (saveConflict cs c)
  | resolve (cs : List ConflictRec) (cid : String) (r : Resolution) (now : Int)
      (c' : ConflictRec) (cs' : List ConflictRec)
      (h : resolveConflictList cs cid r now = some (c', cs')) : ConflictStep cs cs'

/-- One operation on the metadata array, as the server uses the store:
a save whose `version` was allocated by `getNextVersion` with a fresh
random `fileId` (per §3 of the data model distinct uploads carry distinct
file ids) and which did not throw, `deleteMetadata(fileId)`,
`deleteMetadataByFileName(name)` or `renameFileMetadata`.  A throwing
save changes nothing and so needs no constructor. -/
inductive MetaStep : List Meta → List Meta → Prop
  | saveNext (ms : List Meta) (m : Meta) (fid : String) (now : Int)
      (m' : Meta) (ms' : List Meta)
      (hfresh : ∀ x ∈ ms, x.fileId ≠ m.fileId)
      (hver : m.version = metaNextVersion ms m.fileName)
      (hok : saveMetadataCore ms [] m fid now = .ok (m', ms')) :
      MetaStep ms ms'
  | deleteById (ms : List Meta) (fid : String) : MetaStep ms (deleteMetadataById ms fid)
  | deleteByName (ms : List Meta) (name : String) : MetaStep ms (deleteMetadataByName ms name)
  | rename (ms : List Meta) (oldName newName : String) :
      MetaStep ms (renameMetadata ms oldName newName)

/-- The sub-relation without `deleteMetadata(fileId)` and without rename. -/
inductive MetaStepSafe : List Meta → List Meta → Prop
  | saveNext (ms : List Meta) (m : Meta) (fid : String) (now : Int)
      (m' : Meta) (ms' : List Meta)
      (hfresh : ∀ x ∈ ms, x.fileId ≠ m.fileId)
      (hver : m.version = metaNextVersion ms m.fileName)
      (hok : saveMetadataCore ms [] m fid now = .ok (m', ms')) :
      MetaStepSafe ms ms'
  | deleteByName (ms : List Meta) (name : String) : MetaStepSafe ms (deleteMetadataByName ms name)

/-- The multiset of version numbers a file name carries. -/
def versionsOf (ms : List Meta) (name : String) : List Nat :=
  (ms.filter (fun m => m.fileName = name)).map (·.version)

/-- §8 invariant 1: every present name has version set exactly
`{1, …, K}` for some `K ≥ 1`, and no two records share both name and
version. -/
def VersionInvariant (ms : List Meta) : Prop :=
  ∀ name : String, versionsOf ms name ≠ [] →
    (∃ K, 1 ≤ K ∧ (versionsOf ms name).Perm (List.range' 1 K)) ∧
    (versionsOf ms name).Nodup

/-! ## Helper lemmas on association lists -/

theorem alookup_nil {κ β : Type} [DecidableEq κ] (k : κ) :
    alookup ([] : List (κ × β)) k = none := rfl

theorem alookup_cons {κ β : Type} [DecidableEq κ] (x : κ × β) (l : List (κ × β)) (k : κ) :
    alookup (x :: l) k = if x.1 = k then some x.2 else alookup l k := by
  unfold alookup
  by_cases h : x.1 = k
  · rw [List.find?_cons_of_pos _ (by simpa using h)]
    simp [h]
  · rw [List.find?_cons_of_neg _ (by simpa using h)]
    simp [h]

theorem alookup_filter_ne_self {κ β : Type} [DecidableEq κ] (l : List (κ × β)) (k : κ) :
    alookup (l.filter (fun p => p.1 ≠ k)) k = none := by
  induction l with
  | nil => rfl
  | cons x xs ih =>
      simp only [ne_eq, decide_not] at ih ⊢
      by_cases h : x.1 = k
      · simpa [List.filter_cons, h] using ih
      · simp [List.filter_cons, h, alookup_cons, ih]

theorem alookup_filter_ne_other {κ β : Type} [DecidableEq κ] (l : List (κ × β)) (k o : κ)
    (h : o ≠ k) : alookup (l.filter (fun p => p.1 ≠ k)) o = alookup l o := by
  induction l with
  | nil => rfl
  | cons x xs ih =>
      simp only [ne_eq, decide_not] at ih ⊢
      have hko : ¬ k = o := Ne.symm h
      by_cases hx : x.1 = k
      · have hxo : ¬ x.1 = o := by rw [hx]; exact hko
        simp [List.filter_cons, hx, alookup_cons, hxo, hko, ih]
      · simp [List.filter_cons, hx, alookup_cons, ih]

theorem alookup_mapReplace_self {κ β : Type} [DecidableEq κ] (l : List (κ × β)) (k : κ) (v : β)
    (ha : l.any (fun p => p.1 = k)) :
    alookup (l.map (fun p => if p.1 = k then (k, v) else p)) k = some v := by
  induction l with
  | nil => simp at ha
  | cons x xs ih =>
      by_cases hx : x.1 = k
      · simp [List.map_cons, hx, alookup_cons]
      · simp only [List.any_cons, Bool.or_eq_true] at ha
        rcases ha with h | h
        · simp [hx] at h
        · simp [List.map_cons, hx, alookup_cons, ih h]

theorem alookup_mapReplace_other {κ β : Type} [DecidableEq κ] (l : List (κ × β)) (k o : κ)
    (v : β) (h : o ≠ k) :
    alookup (l.map (fun p => if p.1 = k then (k, v) else p)) o = alookup l o := by
  have hko : ¬ k = o := Ne.symm h
  induction l with
  | nil => rfl
  | cons x xs ih =>
      by_cases hx : x.1 = k
      · have hxo : ¬ x.1 = o := by rw [hx]; exact hko
        simp [List.map_cons, hx, alookup_cons, hko, hxo, ih]
      · by_cases hxo : x.1 = o
        · simp [List.map_cons, hx, alookup_cons, hxo, hko, h]
        · simp [List.map_cons, hx, alookup_cons, hxo, ih]

theorem alookup_append_single_other {κ β : Type} [DecidableEq κ] (l : List (κ × β)) (k o : κ)
    (v : β) (h : o ≠ k) : alookup (l ++ [(k, v)]) o = alookup l o := by
  have hko : ¬ k = o := Ne.symm h
  induction l with
  | nil => simp [alookup_cons, alookup_nil, hko]
  | cons x xs ih => simp [List.cons_append, alookup_cons, ih]

theorem alookup_append_single_self {κ β : Type} [DecidableEq κ] (l : List (κ × β)) (k : κ)
    (v : β) (ha : ¬ l.any (fun p => p.1 = k)) : alookup (l ++ [(k, v)]) k = some v := by
  induction l with
  | nil => simp [alookup_cons]
  | cons x xs ih =>
      simp only [List.any_cons, Bool.or_eq_true, not_or] at ha
      have hx : ¬ x.1 = k := by simpa using ha.1
      simp only [List.cons_append, alookup_cons, if_neg hx]
      exact ih (by simpa using ha.2)

theorem alookup_aset_self {κ β : Type} [DecidableEq κ] (l : List (κ × β)) (k : κ) (v : β) :
    alookup (aset l k v) k = some v := by
  unfold aset
  by_cases ha : l.any (fun p => p.1 = k)
  · rw [if_pos ha]; exact alookup_mapReplace_self l k v ha
  · rw [if_neg ha]; exact alookup_append_single_self l k v ha

theorem alookup_aset_other {κ β : Type} [DecidableEq κ] (l : List (κ × β)) (k o : κ) (v : β)
    (h : o ≠ k) : alookup (aset l k v) o = alookup l o := by
  unfold aset
  by_cases ha : l.any (fun p => p.1 = k)
  · rw [if_pos ha]; exact alookup_mapReplace_other l k o v h
  · rw [if_neg ha]; exact alookup_append_single_other l k o v h

/-! ## Claim C3 -/

/-- C3: for every incoming metadata record, `detect_conflict` returns a
conflict if and only if a latest version of the incoming file name exists
and all three hold: the timestamps differ by less than 5000 ms, the
client ids differ, and the checksums differ; in every other case it
returns none and `saveMetadata` proceeds without raising `Conflict`. -/
theorem detectConflict_iff_threshold_client_checksum
    (ms : List Meta) (incoming : Meta) (freshId : String) (now : Int)
    (cs : List ConflictRec) :
    ((∃ c, detectConflict ms incoming freshId now = some c) ↔
      ∃ latest, metaGetLatest ms incoming.fileName = some latest ∧
        (incoming.lastModified - latest.lastModified).natAbs < 5000 ∧
        incoming.clientId ≠ latest.clientId ∧
        incoming.checksum ≠ latest.checksum) ∧
    (detectConflict ms incoming freshId now = none →
      ∃ r, saveMetadataCore ms cs incoming freshId now = .ok r) := by
  constructor
  · cases h : metaGetLatest ms incoming.fileName with
    | none => simp [detectConflict, h]
    | some latest =>
        simp only [detectConflict, h]
        by_cases hcond : (incoming.lastModified - latest.lastModified).natAbs < 5000 ∧
            incoming.clientId ≠ latest.clientId ∧ incoming.checksum ≠ latest.checksum
        · rw [if_pos hcond]
          constructor
          · intro _
            exact ⟨latest, rfl, hcond.1, hcond.2.1, hcond.2.2⟩
          · intro _
            exact ⟨_, rfl⟩
        · rw [if_neg hcond]
          constructor
          · rintro ⟨c, hc⟩
            cases hc
          · rintro ⟨l', hl', hconds⟩
            cases hl'
            exact absurd hconds hcond
  · intro h
    simp only [saveMetadataCore, h]
    cases ms.findIdx? (fun item => item.fileId = incoming.fileId ∧ item.version = incoming.version) with
    | none => exact ⟨_, rfl⟩
    | some i => exact ⟨_, rfl⟩

/-- Concrete latest record for the C3 witness. -/
def c3Latest : Meta :=
  { fileId := "i1", fileName := "a.txt", version := 1, size := 1
    checksum := "h1", clientId := "b", lastModified := 1000 }

/-- Concrete incoming record for the C3 witness. -/
def c3Incoming : Meta :=
  { fileId := "i2", fileName := "a.txt", version := 2, size := 1
    checksum := "h2", clientId := "c", lastModified := 500 }

/-- Witness for C3 at a concrete input. -/
theorem detectConflict_iff_threshold_client_checksum_witness :
    ∃ c, detectConflict [c3Latest] c3Incoming "x" 0 = some c :=
  (detectConflict_iff_threshold_client_checksum [c3Latest] c3Incoming "x" 0 []).1.mpr
    ⟨c3Latest, rfl, by decide, by decide, by decide⟩

/-! ## Claim C5 -/

/-- C5 (evaluation at the failing input): on a state with no stored
blobs, `GET /files/absent.txt/download` answers 500 — `getFile` throws
`File not found` and the handler's catch maps every throw to 500, its own
`if (!fileBuffer) → 404` branch being unreachable — while
`GET /files/absent.txt/versions/1/download` does answer 404 as claimed. -/
theorem download_absent_current_500_version_404 :
    downloadCurrent {} "absent.txt" = (500, none) ∧
    downloadVersion {} "absent.txt" 1 = (404, none) := ⟨rfl, rfl⟩

/-! ## Claim C9 -/

/-- C9 (counterexample): for a 30-second-old local file absent from the
server listing (clean of deletion marks), the claim/spec decision is
upload (age below the ≈60 s grace, with or without first-sync), but the
code removes the file locally (its cutoff is 5000 ms and it has no
first-sync disjunct). -/
theorem local_reconcile_grace_counterexample :
    localNotOnServerAction [] [] [] 30000 "note.txt" 0 = .removeLocal ∧
    localNotOnServerActionSpec true [] [] [] 30000 "note.txt" 0 = .upload ∧
    localNotOnServerActionSpec false [] [] [] 30000 "note.txt" 0 = .upload := by
  decide

/-- C9 (amended): during reconciliation, a local file absent from the
server listing and neither pending-deleted nor recently-deleted is
uploaded iff its age is below 5000 ms, and removed locally otherwise;
there is no first-sync exception. -/
theorem local_reconcile_age_cutoff_5000
    (serverNames recentlyDeleted pendingDeletions : List String)
    (now : Int) (name : String) (lastModified : Int)
    (h1 : ¬ serverNames.contains name) (h2 : ¬ recentlyDeleted.contains name)
    (h3 : ¬ pendingDeletions.contains name) :
    (localNotOnServerAction serverNames recentlyDeleted pendingDeletions now name lastModified =
        .upload ↔ now - lastModified < 5000) ∧
    (localNotOnServerAction serverNames recentlyDeleted pendingDeletions now name lastModified =
        .removeLocal ↔ ¬ now - lastModified < 5000) := by
  unfold localNotOnServerAction
  rw [if_pos ⟨h1, h2, h3⟩]
  by_cases h : now - lastModified < 5000
  · simp [h]
  · simp [h]

/-- Witness for C9 (amended) at a concrete input. -/
theorem local_reconcile_age_cutoff_5000_witness :
    localNotOnServerAction [] [] [] 1000 "note.txt" 0 = .upload :=
  (local_reconcile_age_cutoff_5000 [] [] [] 1000 "note.txt" 0
    (by decide) (by decide) (by decide)).1.mpr (by decide)

/-! ## Claim C8 -/

/-- C8: for an existing current blob, `DELETE /files/{name}` answers 200
and removes only the current blob — the versioned blobs, the metadata
records, the conflicts and every other current blob are unchanged; for an
absent current blob it answers 404 and changes nothing. -/
theorem delete_endpoint_removes_only_current (s : ServerState) (fileName : String) :
    ((alookup s.files fileName).isSome = true →
      (deleteFileEndpoint s fileName).1 = 200 ∧
      (deleteFileEndpoint s fileName).2.versions = s.versions ∧
      (deleteFileEndpoint s fileName).2.metadata = s.metadata ∧
      (deleteFileEndpoint s fileName).2.conflicts = s.conflicts ∧
      alookup (deleteFileEndpoint s fileName).2.files fileName = none ∧
      ∀ other, other ≠ fileName →
        alookup (deleteFileEndpoint s fileName).2.files other = alookup s.files other) ∧
    ((alookup s.files fileName).isSome = false →
      (deleteFileEndpoint s fileName).1 = 404 ∧ (deleteFileEndpoint s fileName).2 = s) := by
  constructor
  · intro h
    have hd : deleteFileEndpoint s fileName =
        (200, { s with files := s.files.filter (fun p => p.1 ≠ fileName) }) := by
      simp only [deleteFileEndpoint, storageDeleteFile, h, if_true]
    rw [hd]
    exact ⟨rfl, rfl, rfl, rfl, alookup_filter_ne_self s.files fileName,
      fun other ho => alookup_filter_ne_other s.files fileName other ho⟩
  · intro h
    have hd : deleteFileEndpoint s fileName = (404, s) := by
      simp [deleteFileEndpoint, storageDeleteFile, h]
    rw [hd]
    exact ⟨rfl, rfl⟩

/-- Witness for C8 at a concrete input. -/
theorem delete_endpoint_removes_only_current_witness :
    (deleteFileEndpoint { files := [("a.txt", [1])], versions := [(("a.txt", 1), [1])] }
        "a.txt").1 = 200 ∧
    (deleteFileEndpoint { files := [("a.txt", [1])], versions := [(("a.txt", 1), [1])] }
        "a.txt").2.versions = [(("a.txt", 1), [1])] := by
  have h := (delete_endpoint_removes_only_current
    { files := [("a.txt", [1])], versions := [(("a.txt", 1), [1])] } "a.txt").1 (by rfl)
  exact ⟨h.1, h.2.1⟩

/-- A predicate false on every element finds no index. -/
theorem findIdx?_eq_none_of {α : Type} (l : List α) (p : α → Bool)
    (h : ∀ x ∈ l, ¬ p x) : l.findIdx? p = none := by
  rw [List.findIdx?_eq_none_iff]
  intro x hx
  simpa using h x hx

/-! ## Claim C2 -/

/-- C2: an upload whose bytes hash to the checksum of the latest existing
version of the same name is short-circuited.  Safe path: the response is
up-to-date with the existing latest version and the whole server state —
metadata array and conflict window included — is unchanged.  Chunked
path: once the parts are complete and assemble to such bytes, the
response is the duplicate message with the existing latest version, the
server state is unchanged and the scratch parts are scrubbed. -/
theorem idempotent_upload_short_circuit
    (hash : List Nat → String) (genId : Nat → String) (now : Int) (s : ServerState)
    (fileName clientId : String) (lmRaw : Option Int) (buf : List Nat)
    (lm : Meta)
    (hname : fileName ≠ "") (hcid : clientId ≠ "")
    (hl : latestOf s.metadata fileName = some lm)
    (hck : lm.checksum = hash buf) :
    uploadSafe hash genId now s fileName clientId lmRaw buf =
      (.upToDate lm.version lm, s) ∧
    (∀ (chunks : List (String × List Nat)) (fileId : String) (chunkNumber totalChunks : Nat)
        (bufc : List Nat) (parts : List (List Nat)),
      fileId ≠ "" →
      ((aset chunks (chunkName fileId chunkNumber) bufc).filter
          (fun p => strStartsWith p.1 (fileId ++ "_"))).length = totalChunks →
      assembleRange (aset chunks (chunkName fileId chunkNumber) bufc) fileId 1 totalChunks =
        .ok parts →
      hash parts.flatten = lm.checksum →
      chunkUpload hash genId now s chunks fileId chunkNumber totalChunks fileName clientId
          lmRaw bufc =
        (.duplicate lm.version "File already up-to-date, no new version created", s,
         removeChunks (aset chunks (chunkName fileId chunkNumber) bufc) fileId totalChunks)) := by
  have hgv : ∃ x xs, getAllVersions s.metadata fileName = x :: xs ∧ reduceLatest x xs = lm := by
    unfold latestOf at hl
    cases hg : getAllVersions s.metadata fileName with
    | nil => rw [hg] at hl; cases hl
    | cons x xs =>
        rw [hg] at hl
        exact ⟨x, xs, rfl, by injection hl⟩
  obtain ⟨x, xs, hg, hred⟩ := hgv
  constructor
  · have hcond : ¬ (fileName = "" ∨ clientId = "") := by
      rintro (h | h)
      · exact hname h
      · exact hcid h
    simp only [uploadSafe, if_neg hcond, hl]
    rw [if_pos hck]
  · intro chunks fileId chunkNumber totalChunks bufc parts hfid hcount hasm hhash
    have hcond : ¬ (fileId = "" ∨ fileName = "") := by
      rintro (h | h)
      · exact hfid h
      · exact hname h
    simp only [chunkUpload, if_neg hcond, hcount, if_pos, hasm, hg]
    rw [if_pos (by rw [hred, hhash])]
    rw [hred]

/-- Concrete checksum function for upload witnesses. -/
def c2hash : List Nat → String := fun b => if b = [1] then "h1" else "h0"

/-- Concrete latest record for upload witnesses. -/
def c2lm : Meta :=
  { fileId := "i1", fileName := "a.txt", version := 1, size := 1
    checksum := "h1", clientId := "b", lastModified := 0 }

/-- Witness for C2 at concrete inputs (both paths). -/
theorem idempotent_upload_short_circuit_witness :
    uploadSafe c2hash (fun k => "g" ++ toString k) 0 { metadata := [c2lm] } "a.txt" "b"
        (some 0) [1] = (.upToDate 1 c2lm, { metadata := [c2lm] }) ∧
    chunkUpload c2hash (fun k => "g" ++ toString k) 0 { metadata := [c2lm] } [] "f" 1 1
        "a.txt" "b" (some 0) [1] =
      (.duplicate 1 "File already up-to-date, no new version created", { metadata := [c2lm] },
       removeChunks (aset [] (chunkName "f" 1) [1]) "f" 1) := by
  have h := idempotent_upload_short_circuit c2hash (fun k => "g" ++ toString k) 0
    { metadata := [c2lm] } "a.txt" "b" (some 0) [1] c2lm
    (by decide) (by decide) rfl rfl
  exact ⟨h.1, h.2 [] "f" 1 1 [1] [[1]] (by decide) (by decide) rfl rfl⟩

/-! ## Claim C10 -/

/-- C10: the safe-upload duplicate check compares the incoming checksum
only against the latest version's checksum.  When the incoming bytes hash
to the checksum of an earlier, non-latest version of the same name but
not to the latest's, the endpoint does not answer up-to-date; with an
empty window for the name and no metadata-level conflict it allocates the
next version and appends a new metadata record, so the version count
grows although identical bytes already sit in the history. -/
theorem duplicate_check_ignores_history
    (hash : List Nat → String) (genId : Nat → String) (now : Int) (s : ServerState)
    (fileName clientId : String) (lmRaw : Option Int) (buf : List Nat)
    (lm mOld : Meta)
    (hname : fileName ≠ "") (hcid : clientId ≠ "")
    (hl : latestOf s.metadata fileName = some lm)
    (hlm_ne : lm.checksum ≠ hash buf)
    (hold_mem : mOld ∈ s.metadata) (hold_name : mOld.fileName = fileName)
    (hold_ck : mOld.checksum = hash buf) (hold_lt : mOld.version < lm.version)
    (hwin : alookup (gcWindow s.window now) fileName = none)
    (hdet : detectConflict s.metadata
        { fileId := genId 0, fileName := fileName
          version := metaNextVersion s.metadata fileName, size := buf.length
          checksum := hash buf, clientId := clientId
          lastModified := lmRaw.getD now } (genId 1) now = none)
    (hfresh : ∀ x ∈ s.metadata, x.fileId ≠ genId 0) :
    (∀ v m, (uploadSafe hash genId now s fileName clientId lmRaw buf).1 ≠ .upToDate v m) ∧
    (uploadSafe hash genId now s fileName clientId lmRaw buf).1 =
      .okUpload (metaNextVersion s.metadata fileName)
        (normalizeMeta
          { fileId := genId 0, fileName := fileName
            version := metaNextVersion s.metadata fileName, size := buf.length
            checksum := hash buf, clientId := clientId
            lastModified := lmRaw.getD now } now) ∧
    (uploadSafe hash genId now s fileName clientId lmRaw buf).2.metadata =
      s.metadata ++ [normalizeMeta
          { fileId := genId 0, fileName := fileName
            version := metaNextVersion s.metadata fileName, size := buf.length
            checksum := hash buf, clientId := clientId
            lastModified := lmRaw.getD now } now] ∧
    (uploadSafe hash genId now s fileName clientId lmRaw buf).2.metadata.length =
      s.metadata.length + 1 := by
  have hcond : ¬ (fileName = "" ∨ clientId = "") := by
    rintro (h | h)
    · exact hname h
    · exact hcid h
  have hne' : ¬ lm.checksum = hash buf := hlm_ne
  have key : uploadSafe hash genId now s fileName clientId lmRaw buf =
      uploadSafeWindow hash genId now s fileName clientId
        { fileId := genId 0, fileName := fileName, version := 0, size := buf.length
          checksum := hash buf, clientId := clientId
          lastModified := lmRaw.getD now } buf := by
    simp only [uploadSafe, if_neg hcond, hl]
    rw [if_neg hne']
  rw [key]
  have hidx : (s.metadata).findIdx? (fun item =>
      item.fileId = genId 0 ∧ item.version = metaNextVersion s.metadata fileName) = none := by
    apply findIdx?_eq_none_of
    intro x hx
    simp only [decide_eq_true_eq]
    rintro ⟨h1, _⟩
    exact hfresh x hx h1
  have key2 : uploadSafeWindow hash genId now s fileName clientId
      { fileId := genId 0, fileName := fileName, version := 0, size := buf.length
        checksum := hash buf, clientId := clientId
        lastModified := lmRaw.getD now } buf =
      (.okUpload (metaNextVersion s.metadata fileName)
        (normalizeMeta
          { fileId := genId 0, fileName := fileName
            version := metaNextVersion s.metadata fileName, size := buf.length
            checksum := hash buf, clientId := clientId
            lastModified := lmRaw.getD now } now),
       { s with
          window := aset (gcWindow s.window now) fileName
            [mkWinEntry clientId (lmRaw.getD now) (hash buf) buf (genId 0) now]
          files := aset s.files fileName buf
          versions := aset s.versions (fileName, metaNextVersion s.metadata fileName) buf
          metadata := s.metadata ++ [normalizeMeta
            { fileId := genId 0, fileName := fileName
              version := metaNextVersion s.metadata fileName, size := buf.length
              checksum := hash buf, clientId := clientId
              lastModified := lmRaw.getD now } now] }) := by
    simp only [uploadSafeWindow, hwin, Option.getD_none, List.nil_append, dedupeEntries,
      List.not_mem_nil, if_false, List.length_singleton, storageSaveFile, mkWinEntry]
    rw [if_neg (by decide)]
    simp only [saveMetadataCore, hdet, hidx]
  rw [key2]
  refine ⟨?_, rfl, rfl, by simp⟩
  intro v m h
  cases h

/-- Second (latest) version record for the C10 witness. -/
def c10lm2 : Meta :=
  { fileId := "i2", fileName := "a.txt", version := 2, size := 1
    checksum := "h2", clientId := "b", lastModified := 0 }

/-- Witness for C10 at a concrete input: bytes equal to version 1 of two
stored versions are re-uploaded and version 3 is allocated. -/
theorem duplicate_check_ignores_history_witness :
    (uploadSafe c2hash (fun k => "g" ++ toString k) 0
        { metadata := [c2lm, c10lm2] } "a.txt" "b" (some 0) [1]).1 =
      .okUpload 3 (normalizeMeta
        { fileId := "g0", fileName := "a.txt", version := 3, size := 1
          checksum := "h1", clientId := "b", lastModified := 0 } 0) ∧
    (uploadSafe c2hash (fun k => "g" ++ toString k) 0
        { metadata := [c2lm, c10lm2] } "a.txt" "b" (some 0) [1]).2.metadata.length = 3 := by
  have h := duplicate_check_ignores_history c2hash (fun k => "g" ++ toString k) 0
    { metadata := [c2lm, c10lm2] } "a.txt" "b" (some 0) [1] c10lm2 c2lm
    (by decide) (by decide) rfl (by decide) (by decide) rfl rfl (by decide)
    rfl rfl (by decide)
  exact ⟨h.2.1, h.2.2.2⟩

/-! ## Claim C6 -/

/-- Fields set by a successful `resolveConflict`. -/
theorem resolveConflictList_ok_fields :
    ∀ (cs : List ConflictRec) (cid : String) (r : Resolution) (now : Int)
      (c' : ConflictRec) (cs' : List ConflictRec),
    resolveConflictList cs cid r now = some (c', cs') →
    c'.status = "resolved" ∧ c'.resolution = some r ∧ c'.resolvedAt = some now ∧
    c'.id = cid ∧ c' ∈ cs' := by
  intro cs
  induction cs with
  | nil => intro cid r now c' cs' h; cases h
  | cons c rest ih =>
      intro cid r now c' cs' h
      simp only [resolveConflictList] at h
      by_cases hc : c.id = cid
      · rw [if_pos hc] at h
        cases h
        exact ⟨rfl, rfl, rfl, hc, List.mem_cons_self _ _⟩
      · rw [if_neg hc] at h
        cases hres : resolveConflictList rest cid r now with
        | none => rw [hres] at h; cases h
        | some p =>
            rw [hres] at h
            cases h
            obtain ⟨h1, h2, h3, h4, h5⟩ := ih cid r now p.1 p.2 (by rw [hres])
            exact ⟨h1, h2, h3, h4, List.mem_cons_of_mem _ h5⟩

/-- `resolveConflict` preserves the sequence of stored conflict ids. -/
theorem resolveConflictList_ids :
    ∀ (cs : List ConflictRec) (cid : String) (r : Resolution) (now : Int)
      (c' : ConflictRec) (cs' : List ConflictRec),
    resolveConflictList cs cid r now = some (c', cs') →
    cs'.map (fun c => c.id) = cs.map (fun c => c.id) := by
  intro cs
  induction cs with
  | nil => intro cid r now c' cs' h; cases h
  | cons c rest ih =>
      intro cid r now c' cs' h
      simp only [resolveConflictList] at h
      by_cases hc : c.id = cid
      · rw [if_pos hc] at h
        cases h
        rfl
      · rw [if_neg hc] at h
        cases hres : resolveConflictList rest cid r now with
        | none => rw [hres] at h; cases h
        | some p =>
            rw [hres] at h
            cases h
            simp only [List.map_cons]
            rw [ih cid r now p.1 p.2 (by rw [hres])]

/-- Every record after a `resolveConflict` was already stored or is
marked resolved. -/
theorem resolveConflictList_mem :
    ∀ (cs : List ConflictRec) (cid : String) (r : Resolution) (now : Int)
      (c' : ConflictRec) (cs' : List ConflictRec),
    resolveConflictList cs cid r now = some (c', cs') →
    ∀ x ∈ cs', x ∈ cs ∨ x.status = "resolved" := by
  intro cs
  induction cs with
  | nil => intro cid r now c' cs' h; cases h
  | cons c rest ih =>
      intro cid r now c' cs' h
      simp only [resolveConflictList] at h
      by_cases hc : c.id = cid
      · rw [if_pos hc] at h
        cases h
        intro x hx
        rcases List.mem_cons.mp hx with hx | hx
        · right; rw [hx]
        · left; exact List.mem_cons_of_mem _ hx
      · rw [if_neg hc] at h
        cases hres : resolveConflictList rest cid r now with
        | none => rw [hres] at h; cases h
        | some p =>
            rw [hres] at h
            cases h
            intro x hx
            rcases List.mem_cons.mp hx with hx | hx
            · left; rw [hx]; exact List.mem_cons_self _ _
            · rcases ih cid r now p.1 p.2 (by rw [hres]) x hx with h' | h'
              · left; exact List.mem_cons_of_mem _ h'
              · right; exact h'

/-- A second `resolveConflict` on the same id also succeeds and
overwrites `resolution` and `resolvedAt`. -/
theorem resolveConflictList_again :
    ∀ (cs : List ConflictRec) (cid : String) (r1 : Resolution) (n1 : Int)
      (c1 : ConflictRec) (cs1 : List ConflictRec),
    resolveConflictList cs cid r1 n1 = some (c1, cs1) →
    ∀ (r2 : Resolution) (n2 : Int),
    ∃ cs2, resolveConflictList cs1 cid r2 n2 =
      some ({ c1 with status := "resolved", resolution := some r2, resolvedAt := some n2 },
            cs2) := by
  intro cs
  induction cs with
  | nil => intro cid r1 n1 c1 cs1 h; cases h
  | cons c rest ih =>
      intro cid r1 n1 c1 cs1 h r2 n2
      simp only [resolveConflictList] at h
      by_cases hc : c.id = cid
      · rw [if_pos hc] at h
        cases h
        refine ⟨{ c with status := "resolved", resolution := some r2, resolvedAt := some n2 }
          :: rest, ?_⟩
        simp [resolveConflictList, hc]
      · rw [if_neg hc] at h
        cases hres : resolveConflictList rest cid r1 n1 with
        | none => rw [hres] at h; cases h
        | some p =>
            rw [hres] at h
            cases h
            obtain ⟨cs2, hcs2⟩ := ih cid r1 n1 p.1 p.2 (by rw [hres]) r2 n2
            refine ⟨c :: cs2, ?_⟩
            simp only [resolveConflictList, if_neg hc, hcs2]

/-- C6 (counterexample): resolving the same conflict twice succeeds both
times and the second resolution takes effect, overwriting `resolution`
and `resolved_at` — so the claim's "no second resolution of the same
conflict id takes effect" is false. -/
theorem resolve_conflict_twice_counterexample :
    resolveConflictList [{ id := "i1", fileName := "a.txt" }] "i1"
        { method := "keep-mine", keepVersion := none, resolvedBy := "b" } 5 =
      some ({ id := "i1", fileName := "a.txt", status := "resolved"
              resolution := some { method := "keep-mine", keepVersion := none, resolvedBy := "b" }
              resolvedAt := some 5 },
            [{ id := "i1", fileName := "a.txt", status := "resolved"
               resolution := some { method := "keep-mine", keepVersion := none, resolvedBy := "b" }
               resolvedAt := some 5 }]) ∧
    resolveConflictList
        [{ id := "i1", fileName := "a.txt", status := "resolved"
           resolution := some { method := "keep-mine", keepVersion := none, resolvedBy := "b" }
           resolvedAt := some 5 }] "i1"
        { method := "keep-server", keepVersion := none, resolvedBy := "c" } 9 =
      some ({ id := "i1", fileName := "a.txt", status := "resolved"
              resolution := some { method := "keep-server", keepVersion := none, resolvedBy := "c" }
              resolvedAt := some 9 },
            [{ id := "i1", fileName := "a.txt", status := "resolved"
               resolution := some { method := "keep-server", keepVersion := none, resolvedBy := "c" }
               resolvedAt := some 9 }]) ∧
    ({ method := "keep-server", keepVersion := none, resolvedBy := "c" } : Resolution) ≠
      { method := "keep-mine", keepVersion := none, resolvedBy := "b" } := by
  decide

/-- One `ConflictStep` preserves "the conflict with id `i` exists and
every record carrying that id is resolved". -/
theorem conflictStep_preserves_resolved (cs cs' : List ConflictRec) (h : ConflictStep cs cs')
    (i : String) (hex : ∃ c ∈ cs, c.id = i)
    (hall : ∀ c ∈ cs, c.id = i → c.status = "resolved") :
    (∃ c ∈ cs', c.id = i) ∧ (∀ c ∈ cs', c.id = i → c.status = "resolved") := by
  cases h with
  | save c =>
      unfold saveConflict
      by_cases hc : cs.any (fun x => x.id = c.id)
      · rw [if_pos hc]
        exact ⟨hex, hall⟩
      · rw [if_neg hc]
        constructor
        · obtain ⟨x, hx, hxi⟩ := hex
          exact ⟨x, List.mem_append_left _ hx, hxi⟩
        · intro y hy hyi
          rcases List.mem_append.mp hy with hy | hy
          · exact hall y hy hyi
          · exfalso
            rcases List.mem_singleton.mp hy with rfl
            obtain ⟨x, hx, hxi⟩ := hex
            apply hc
            rw [List.any_eq_true]
            exact ⟨x, hx, by simp [hxi, hyi]⟩
  | resolve =>
      rename_i cid r nowv c' h'
      constructor
      · obtain ⟨x, hx, hxi⟩ := hex
        have hids := resolveConflictList_ids _ _ _ _ _ _ h'
        have hmm : x.id ∈ cs'.map (fun c => c.id) := by
          rw [hids]
          exact List.mem_map.mpr ⟨x, hx, rfl⟩
        obtain ⟨y, hy, hyi⟩ := List.mem_map.mp hmm
        exact ⟨y, hy, by rw [hyi, hxi]⟩
      · intro y hy hyi
        rcases resolveConflictList_mem _ _ _ _ _ _ h' y hy with h'' | h''
        · exact hall y h'' hyi
        · exact h''

/-- C6 (amended): a conflict's status transitions from unresolved to
resolved and never back — `resolve_conflict` on an existing conflict sets
`status=resolved` with `resolution` and `resolved_at`, and no sequence of
conflict-store operations (`saveConflict`, `resolveConflict`) ever sets a
resolved conflict's status back to unresolved — but a second resolution
of the same conflict id does take effect: it succeeds again and
overwrites `resolution` and `resolved_at`, leaving the status resolved. -/
theorem conflict_status_resolved_monotone :
    (∀ (cs : List ConflictRec) (cid : String) (r : Resolution) (now : Int)
        (c' : ConflictRec) (cs' : List ConflictRec),
      resolveConflictList cs cid r now = some (c', cs') →
      c'.status = "resolved" ∧ c'.resolution = some r ∧ c'.resolvedAt = some now ∧
        c'.id = cid ∧ c' ∈ cs') ∧
    (∀ (cs cs' : List ConflictRec), Relation.ReflTransGen ConflictStep cs cs' →
      ∀ i : String, (∃ c ∈ cs, c.id = i) → (∀ c ∈ cs, c.id = i → c.status = "resolved") →
        (∃ c ∈ cs', c.id = i) ∧ (∀ c ∈ cs', c.id = i → c.status = "resolved")) ∧
    (∀ (cs : List ConflictRec) (cid : String) (r1 : Resolution) (n1 : Int)
        (c1 : ConflictRec) (cs1 : List ConflictRec) (r2 : Resolution) (n2 : Int),
      resolveConflictList cs cid r1 n1 = some (c1, cs1) →
      ∃ cs2, resolveConflictList cs1 cid r2 n2 =
        some ({ c1 with status := "resolved", resolution := some r2, resolvedAt := some n2 },
              cs2)) := by
  refine ⟨resolveConflictList_ok_fields, ?_, ?_⟩
  · intro cs cs' h
    induction h with
    | refl => intro i h1 h2; exact ⟨h1, h2⟩
    | tail hsteps hstep ih =>
        intro i h1 h2
        obtain ⟨hex, hall⟩ := ih i h1 h2
        exact conflictStep_preserves_resolved _ _ hstep i hex hall
  · intro cs cid r1 n1 c1 cs1 r2 n2 h
    exact resolveConflictList_again cs cid r1 n1 c1 cs1 h r2 n2

/-- Witness for C6 (amended) at a concrete input. -/
theorem conflict_status_resolved_monotone_witness :
    ∃ c' cs', resolveConflictList [{ id := "i1", fileName := "a.txt" }] "i1"
        { method := "keep-mine", keepVersion := none, resolvedBy := "b" } 5 =
          some (c', cs') ∧ c'.status = "resolved" ∧ c'.resolvedAt = some 5 := by
  refine ⟨_, _, rfl, ?_⟩
  have h := conflict_status_resolved_monotone.1 [{ id := "i1", fileName := "a.txt" }] "i1"
    { method := "keep-mine", keepVersion := none, resolvedBy := "b" } 5 _ _ rfl
  exact ⟨h.1, h.2.2.1⟩

/-! ## Claim C7 -/

/-- The JS reduce of `getLatestVersion` returns one of the records. -/
theorem reduceLatest_mem (x : Meta) (xs : List Meta) :
    xs.foldl (fun latest current =>
      if current.version > latest.version then current else latest) x ∈ x :: xs := by
  induction xs generalizing x with
  | nil => exact List.mem_cons_self x []
  | cons y ys ih =>
      simp only [List.foldl_cons]
      by_cases h : y.version > x.version
      · rw [if_pos h]
        rcases List.mem_cons.mp (ih y) with h' | h'
        · rw [h']; exact List.mem_cons_of_mem _ (List.mem_cons_self _ _)
        · exact List.mem_cons_of_mem _ (List.mem_cons_of_mem _ h')
      · rw [if_neg h]
        rcases List.mem_cons.mp (ih x) with h' | h'
        · rw [h']; exact List.mem_cons_self _ _
        · exact List.mem_cons_of_mem _ (List.mem_cons_of_mem _ h')

/-- The JS reduce of `getLatestVersion` dominates every record's version. -/
theorem reduceLatest_version_ge (x : Meta) (xs : List Meta) :
    ∀ y ∈ x :: xs, y.version ≤ (xs.foldl (fun latest current =>
      if current.version > latest.version then current else latest) x).version := by
  induction xs generalizing x with
  | nil =>
      intro y hy
      rcases List.mem_cons.mp hy with rfl | hy
      · exact le_refl _
      · cases hy
  | cons z zs ih =>
      intro y hy
      simp only [List.foldl_cons]
      have hx : x.version ≤ (if z.version > x.version then z else x).version := by
        by_cases h : z.version > x.version
        · rw [if_pos h]; omega
        · rw [if_neg h]
      have hz : z.version ≤ (if z.version > x.version then z else x).version := by
        by_cases h : z.version > x.version
        · rw [if_pos h]
        · rw [if_neg h]; omega
      have hacc := ih (if z.version > x.version then z else x)
      rcases List.mem_cons.mp hy with rfl | hy'
      · exact le_trans hx (hacc _ (List.mem_cons_self _ _))
      · rcases List.mem_cons.mp hy' with rfl | hy''
        · exact le_trans hz (hacc _ (List.mem_cons_self _ _))
        · exact hacc y (List.mem_cons_of_mem _ hy'')

/-- `getLatestVersion` returns a stored record with the maximal version
among the records of the name. -/
theorem metaGetLatest_spec (ms : List Meta) (name : String) (lm : Meta)
    (h : metaGetLatest ms name = some lm) :
    lm ∈ ms.filter (fun m => m.fileName = name) ∧
    ∀ y ∈ ms.filter (fun m => m.fileName = name), y.version ≤ lm.version := by
  unfold metaGetLatest at h
  cases hf : ms.filter (fun m => m.fileName = name) with
  | nil => rw [hf] at h; cases h
  | cons x xs =>
      rw [hf] at h
      injection h with h
      subst h
      exact ⟨reduceLatest_mem x xs, reduceLatest_version_ge x xs⟩

/-- Splitting `versionsOf` over an appended record. -/
theorem versionsOf_append_meta (ms : List Meta) (m : Meta) (name : String) :
    versionsOf (ms ++ [m]) name =
      versionsOf ms name ++ (if m.fileName = name then [m.version] else []) := by
  unfold versionsOf
  rw [List.filter_append]
  by_cases h : m.fileName = name <;> simp [List.filter_cons, h]

/-- A name has no latest record iff it has no records. -/
theorem metaGetLatest_none_iff (ms : List Meta) (name : String) :
    metaGetLatest ms name = none ↔ ms.filter (fun m => m.fileName = name) = [] := by
  unfold metaGetLatest
  cases hf : ms.filter (fun m => m.fileName = name) with
  | nil => simp
  | cons x xs => simp

/-- With versions exactly `{1, …, K}`, the next allocated version is
`K + 1`. -/
theorem metaNextVersion_of_perm (ms : List Meta) (name : String) (K : Nat) (hK : 1 ≤ K)
    (hperm : (versionsOf ms name).Perm (List.range' 1 K)) :
    metaNextVersion ms name = K + 1 := by
  have hlen : (versionsOf ms name).length = K := by
    rw [hperm.length_eq, List.length_range']
  cases hl : metaGetLatest ms name with
  | none =>
      exfalso
      have hf := (metaGetLatest_none_iff ms name).mp hl
      rw [versionsOf, hf] at hlen
      simp at hlen
      omega
  | some lm =>
      obtain ⟨hmem, hmax⟩ := metaGetLatest_spec ms name lm hl
      have hlmv : lm.version ∈ versionsOf ms name :=
        List.mem_map.mpr ⟨lm, hmem, rfl⟩
      have hlmv' : lm.version ∈ List.range' 1 K := hperm.mem_iff.mp hlmv
      have hub : lm.version ≤ K := by
        have := List.mem_range'_1.mp hlmv'
        omega
      have hKmem : K ∈ versionsOf ms name := by
        apply hperm.mem_iff.mpr
        apply List.mem_range'_1.mpr
        omega
      obtain ⟨y, hy, hyv⟩ := List.mem_map.mp hKmem
      have hlb : K ≤ lm.version := by
        rw [← hyv]; exact hmax y hy
      have hv : lm.version = K := le_antisymm hub hlb
      simp only [metaNextVersion, hl]
      omega

/-- A save with a fresh `fileId` that does not throw appends the
normalized record. -/
theorem saveMetadataCore_fresh_append (ms : List Meta) (cs : List ConflictRec) (m : Meta)
    (freshId : String) (now : Int) (m' : Meta) (ms' : List Meta)
    (hfresh : ∀ x ∈ ms, x.fileId ≠ m.fileId)
    (hok : saveMetadataCore ms cs m freshId now = .ok (m', ms')) :
    m' = normalizeMeta m now ∧ ms' = ms ++ [normalizeMeta m now] := by
  have hidx : ms.findIdx? (fun item => item.fileId = m.fileId ∧ item.version = m.version)
      = none := by
    apply findIdx?_eq_none_of
    intro x hx
    simp only [decide_eq_true_eq]
    rintro ⟨h1, _⟩
    exact hfresh x hx h1
  cases hd : detectConflict ms m freshId now with
  | some c =>
      simp only [saveMetadataCore, hd] at hok
      exact Except.noConfusion hok
  | none =>
      simp only [saveMetadataCore, hd, hidx] at hok
      cases hok
      exact ⟨rfl, rfl⟩

/-- The next version is always positive. -/
theorem metaNextVersion_pos (ms : List Meta) (name : String) :
    1 ≤ metaNextVersion ms name := by
  cases hl : metaGetLatest ms name with
  | none => simp [metaNextVersion, hl]
  | some l => simp [metaNextVersion, hl]

/-- `deleteMetadataByFileName` empties the name's versions. -/
theorem versionsOf_deleteByName_self (ms : List Meta) (n : String) :
    versionsOf (deleteMetadataByName ms n) n = [] := by
  induction ms with
  | nil => rfl
  | cons m rest ih =>
      by_cases h : m.fileName = n
      · simpa [deleteMetadataByName, versionsOf, List.filter_cons, h] using ih
      · simpa [deleteMetadataByName, versionsOf, List.filter_cons, h] using ih

/-- `deleteMetadataByFileName` leaves other names' versions unchanged. -/
theorem versionsOf_deleteByName_other (ms : List Meta) (n name : String) (h : name ≠ n) :
    versionsOf (deleteMetadataByName ms n) name = versionsOf ms name := by
  have hnn : ¬ n = name := Ne.symm h
  induction ms with
  | nil => rfl
  | cons m rest ih =>
      by_cases hm : m.fileName = n
      · have hmn : ¬ m.fileName = name := by rw [hm]; exact hnn
        simpa [deleteMetadataByName, versionsOf, List.filter_cons, hm, hmn, h, hnn] using ih
      · by_cases hname : m.fileName = name
        · simpa [deleteMetadataByName, versionsOf, List.filter_cons, hm, hname, h, hnn] using ih
        · simpa [deleteMetadataByName, versionsOf, List.filter_cons, hm, hname, h, hnn] using ih

/-- One safe metadata-store operation preserves the version invariant. -/
theorem metaStepSafe_preserves (ms ms' : List Meta) (h : MetaStepSafe ms ms')
    (hinv : VersionInvariant ms) : VersionInvariant ms' := by
  cases h with
  | saveNext =>
      rename_i m fid nowv m' hfresh hver hok
      obtain ⟨hm', hms'⟩ := saveMetadataCore_fresh_append ms [] m fid nowv m' ms' hfresh hok
      subst hms'
      have hvpos : 1 ≤ m.version := by
        rw [hver]; exact metaNextVersion_pos ms m.fileName
      have hnz : ¬ m.version = 0 := by omega
      have hnmv : (normalizeMeta m nowv).version = m.version := by
        simp [normalizeMeta, hnz]
      have hnmf : (normalizeMeta m nowv).fileName = m.fileName := rfl
      intro name hne
      rw [versionsOf_append_meta] at hne ⊢
      by_cases hn : (normalizeMeta m nowv).fileName = name
      · rw [if_pos hn] at hne ⊢
        have hmn : m.fileName = name := by rw [← hnmf]; exact hn
        by_cases hempty : versionsOf ms name = []
        · have hfil : ms.filter (fun x => x.fileName = name) = [] := by
            have h0 := hempty
            unfold versionsOf at h0
            exact List.map_eq_nil.mp h0
          have hnext1 : metaNextVersion ms name = 1 := by
            unfold metaNextVersion
            rw [(metaGetLatest_none_iff ms name).mpr hfil]
          have hv1 : m.version = 1 := by rw [hver, hmn, hnext1]
          rw [hempty, List.nil_append]
          rw [hnmv, hv1]
          exact ⟨⟨1, le_refl 1, List.Perm.refl [1]⟩, List.nodup_singleton 1⟩
        · obtain ⟨⟨K, hK, hperm⟩, hnodup⟩ := hinv name hempty
          have hnext : metaNextVersion ms name = K + 1 :=
            metaNextVersion_of_perm ms name K hK hperm
          have hv : m.version = K + 1 := by rw [hver, hmn, hnext]
          rw [hnmv, hv]
          have hr : List.range' 1 (K + 1) = List.range' 1 K ++ [K + 1] := by
            rw [List.range'_concat 1 K]
            congr 1
            simp
            omega
          have hpermNew : (versionsOf ms name ++ [K + 1]).Perm (List.range' 1 (K + 1)) := by
            rw [hr]
            exact hperm.append_right [K + 1]
          exact ⟨⟨K + 1, by omega, hpermNew⟩,
            (hpermNew.nodup_iff).mpr (List.nodup_range' 1 (K + 1))⟩
      · rw [if_neg hn] at hne ⊢
        rw [List.append_nil] at hne ⊢
        exact hinv name hne
  | deleteByName n =>
      intro name hne
      by_cases hn : name = n
      · subst hn
        rw [versionsOf_deleteByName_self] at hne
        exact absurd rfl hne
      · rw [versionsOf_deleteByName_other ms n name hn] at hne ⊢
        exact hinv name hne

/-- C7 (amended): in every state reachable from the empty store by saves
that allocate `version = getNextVersion` (with fresh file ids) and by
delete-by-file-name, every present file name has version set exactly
`{1, …, K}` for some `K ≥ 1` and no two records share both name and
version.  (Delete-by-file-id and rename are excluded: the former can
leave gaps, the latter can merge histories.) -/
theorem version_invariant_of_safe_ops (ms : List Meta)
    (h : Relation.ReflTransGen MetaStepSafe [] ms) : VersionInvariant ms := by
  induction h with
  | refl =>
      intro name hne
      exact absurd rfl hne
  | tail hsteps hstep ih => exact metaStepSafe_preserves _ _ hstep ih

/-- First saved record of the C7 scenario (`normalizeMeta` applied at
time 0 to a version-1 upload by client `a`). -/
def c7m1 : Meta :=
  { fileId := "i1", fileName := "a.txt", version := 1, size := 1
    checksum := "h1", clientId := "a", lastModified := 0
    createdAt := some 0, updatedAt := some 0 }

/-- Second saved record of the C7 scenario. -/
def c7m2 : Meta :=
  { fileId := "i2", fileName := "a.txt", version := 2, size := 1
    checksum := "h2", clientId := "a", lastModified := 0
    createdAt := some 0, updatedAt := some 0 }

/-- Third saved record of the C7 scenario. -/
def c7m3 : Meta :=
  { fileId := "i3", fileName := "a.txt", version := 3, size := 1
    checksum := "h3", clientId := "a", lastModified := 0
    createdAt := some 0, updatedAt := some 0 }

/-- C7 (counterexample): the state reached by three next-version saves of
`a.txt` followed by `deleteMetadata(fileId)` of the middle version is
reachable by the metadata store's operations, yet its version set is
`{1, 3}` — not `{1, …, K}` for any K. -/
theorem version_invariant_counterexample :
    Relation.ReflTransGen MetaStep [] [c7m1, c7m3] ∧
    ¬ VersionInvariant [c7m1, c7m3] := by
  constructor
  · have s1 : MetaStep [] [c7m1] :=
      MetaStep.saveNext []
        { fileId := "i1", fileName := "a.txt", version := 1, size := 1
          checksum := "h1", clientId := "a", lastModified := 0 }
        "x" 0 c7m1 [c7m1] (by intro x hx; cases hx) rfl rfl
    have s2 : MetaStep [c7m1] [c7m1, c7m2] :=
      MetaStep.saveNext [c7m1]
        { fileId := "i2", fileName := "a.txt", version := 2, size := 1
          checksum := "h2", clientId := "a", lastModified := 0 }
        "x" 0 c7m2 [c7m1, c7m2] (by decide) rfl rfl
    have s3 : MetaStep [c7m1, c7m2] [c7m1, c7m2, c7m3] :=
      MetaStep.saveNext [c7m1, c7m2]
        { fileId := "i3", fileName := "a.txt", version := 3, size := 1
          checksum := "h3", clientId := "a", lastModified := 0 }
        "x" 0 c7m3 [c7m1, c7m2, c7m3] (by decide) rfl rfl
    have s4 : MetaStep [c7m1, c7m2, c7m3] [c7m1, c7m3] := by
      have h4 := MetaStep.deleteById [c7m1, c7m2, c7m3] "i2"
      have he : deleteMetadataById [c7m1, c7m2, c7m3] "i2" = [c7m1, c7m3] := by decide
      rw [he] at h4
      exact h4
    exact Relation.ReflTransGen.tail (Relation.ReflTransGen.tail
      (Relation.ReflTransGen.tail (Relation.ReflTransGen.tail
        Relation.ReflTransGen.refl s1) s2) s3) s4
  · intro hinv
    obtain ⟨⟨K, hK, hperm⟩, -⟩ := hinv "a.txt" (by decide)
    have hv : versionsOf [c7m1, c7m3] "a.txt" = [1, 3] := by decide
    rw [hv] at hperm
    have hlen := hperm.length_eq
    rw [List.length_range'] at hlen
    have hK2 : K = 2 := by simpa using hlen.symm
    subst hK2
    have h3 : (3 : Nat) ∈ List.range' 1 2 := hperm.mem_iff.mp (by decide)
    rw [List.mem_range'_1] at h3
    omega

/-- Witness for C7 (amended): the invariant holds at a concrete state
reached by one next-version save. -/
theorem version_invariant_of_safe_ops_witness : VersionInvariant [c7m1] := by
  apply version_invariant_of_safe_ops
  have s1 : MetaStepSafe [] [c7m1] :=
    MetaStepSafe.saveNext []
      { fileId := "i1", fileName := "a.txt", version := 1, size := 1
        checksum := "h1", clientId := "a", lastModified := 0 }
      "x" 0 c7m1 [c7m1] (by intro x hx; cases hx) rfl rfl
  exact Relation.ReflTransGen.tail Relation.ReflTransGen.refl s1

/-! ## Claim C4 -/

/-- Generalized assembly round-trip: parts `lo, lo+1, …` found in the
scratch store assemble in numeric order. -/
theorem assembleRange_ok (chunks : List (String × List Nat)) (fileId : String) :
    ∀ (cs : List (List Nat)) (lo : Nat),
    (∀ i (hi : i < cs.length),
      alookup chunks (chunkName fileId (lo + i)) = some (cs.get ⟨i, hi⟩)) →
    (∀ c ∈ cs, c ≠ []) →
    assembleRange chunks fileId lo cs.length = .ok cs := by
  intro cs
  induction cs with
  | nil => intro lo _ _; rfl
  | cons c rest ih =>
      intro lo hlook hne
      have h0 : alookup chunks (chunkName fileId lo) = some c := by
        have h := hlook 0 (by simp)
        simpa using h
      simp only [List.length_cons, assembleRange, h0]
      have hcne : ¬ c.length = 0 := by
        intro h
        exact hne c (List.mem_cons_self _ _) (List.length_eq_zero.mp h)
      rw [if_neg hcne]
      have hrest : assembleRange chunks fileId (lo + 1) rest.length = .ok rest := by
        apply ih (lo + 1)
        · intro i hi
          have h := hlook (i + 1) (by simpa using Nat.succ_lt_succ hi)
          rw [show lo + 1 + i = lo + (i + 1) by omega]
          simpa using h
        · intro x hx; exact hne x (List.mem_cons_of_mem _ hx)
      rw [hrest]

/-- A missing or empty part anywhere in `1..n` aborts the assembly. -/
theorem assembleRange_error (chunks : List (String × List Nat)) (fileId : String) :
    ∀ (n lo i : Nat), lo ≤ i → i < lo + n →
    (alookup chunks (chunkName fileId i) = none ∨
     alookup chunks (chunkName fileId i) = some []) →
    ∃ msg, assembleRange chunks fileId lo n = .error msg := by
  intro n
  induction n with
  | zero => intro lo i h1 h2; omega
  | succ n ih =>
      intro lo i h1 h2 hbad
      by_cases hlo : i = lo
      · subst hlo
        rcases hbad with hb | hb
        · exact ⟨"Missing chunk file: " ++ chunkName fileId i, by
            simp [assembleRange, hb]⟩
        · exact ⟨"Corrupt or empty chunk: " ++ chunkName fileId i, by
            simp [assembleRange, hb]⟩
      · cases hl : alookup chunks (chunkName fileId lo) with
        | none =>
            exact ⟨"Missing chunk file: " ++ chunkName fileId lo, by
              simp [assembleRange, hl]⟩
        | some part =>
            by_cases hp : part.length = 0
            · exact ⟨"Corrupt or empty chunk: " ++ chunkName fileId lo, by
                simp [assembleRange, hl, hp]⟩
            · obtain ⟨msg, hmsg⟩ := ih (lo + 1) i (by omega) (by omega) hbad
              exact ⟨msg, by simp [assembleRange, hl, hp, hmsg]⟩

/-- `getAllVersions` is empty exactly when the plain filter is. -/
theorem getAllVersions_nil_iff (ms : List Meta) (name : String) :
    getAllVersions ms name = [] ↔ ms.filter (fun m => m.fileName = name) = [] := by
  unfold getAllVersions
  cases hf : ms.filter (fun m => m.fileName = name) with
  | nil => simp
  | cons x xs =>
      simp only [List.foldr_cons]
      constructor
      · intro h
        cases hins : insertByVersionDesc x (xs.foldr insertByVersionDesc []) with
        | nil =>
            exfalso
            cases hrec : xs.foldr insertByVersionDesc [] with
            | nil => rw [hrec] at hins; cases hins
            | cons y ys =>
                rw [hrec] at hins
                unfold insertByVersionDesc at hins
                by_cases hc : x.version ≥ y.version
                · rw [if_pos hc] at hins; cases hins
                · rw [if_neg hc] at hins; cases hins
        | cons y ys => rw [hins] at h; cases h
      · intro h; cases h

/-- C4: for every byte sequence B split in order into `total_chunks ≥ 1`
non-empty parts stored under `<fileId>_<i>`, the assembler reads parts
`1..total_chunks` in numeric order and produces exactly B; assembly fails
whenever any part in range is missing or empty; and the post that
completes the set stores the assembled bytes as the file's current and
versioned blob (shown for a fresh file name, stored as version 1). -/
theorem chunk_assembly_roundtrip
    (fileId : String) (cs : List (List Nat)) (chunks : List (String × List Nat))
    (hn : 1 ≤ cs.length)
    (hlook : ∀ i (hi : i < cs.length),
      alookup chunks (chunkName fileId (1 + i)) = some (cs.get ⟨i, hi⟩))
    (hne : ∀ c ∈ cs, c ≠ []) :
    ((assembleRange chunks fileId 1 cs.length).map List.flatten = .ok cs.flatten) ∧
    (∀ (chunks' : List (String × List Nat)) (total i : Nat), 1 ≤ i → i < 1 + total →
      (alookup chunks' (chunkName fileId i) = none ∨
       alookup chunks' (chunkName fileId i) = some []) →
      ∃ msg, assembleRange chunks' fileId 1 total = .error msg) ∧
    (∀ (hash : List Nat → String) (genId : Nat → String) (now : Int) (s : ServerState)
       (chunks0 : List (String × List Nat)) (chunkNumber totalChunks : Nat)
       (fileName clientId : String) (lmRaw : Option Int) (bufc : List Nat),
      fileId ≠ "" → fileName ≠ "" →
      ((aset chunks0 (chunkName fileId chunkNumber) bufc).filter
          (fun p => strStartsWith p.1 (fileId ++ "_"))).length = totalChunks →
      assembleRange (aset chunks0 (chunkName fileId chunkNumber) bufc) fileId 1 totalChunks
        = .ok cs →
      getAllVersions s.metadata fileName = [] →
      (chunkUpload hash genId now s chunks0 fileId chunkNumber totalChunks fileName clientId
          lmRaw bufc).1 = .assembled 1 ∧
      alookup (chunkUpload hash genId now s chunks0 fileId chunkNumber totalChunks fileName
          clientId lmRaw bufc).2.1.files fileName = some cs.flatten ∧
      alookup (chunkUpload hash genId now s chunks0 fileId chunkNumber totalChunks fileName
          clientId lmRaw bufc).2.1.versions (fileName, 1) = some cs.flatten) := by
  refine ⟨?_, ?_, ?_⟩
  · rw [assembleRange_ok chunks fileId cs 1 hlook hne]
    rfl
  · intro chunks' total i h1 h2 hbad
    exact assembleRange_error chunks' fileId total 1 i h1 h2 hbad
  · intro hash genId now s chunks0 chunkNumber totalChunks fileName clientId lmRaw bufc
      hfid hname hcount hasm hgv
    have hcond : ¬ (fileId = "" ∨ fileName = "") := by
      rintro (h | h)
      · exact hfid h
      · exact hname h
    have hfil := (getAllVersions_nil_iff s.metadata fileName).mp hgv
    have hlat : metaGetLatest s.metadata fileName = none :=
      (metaGetLatest_none_iff s.metadata fileName).mpr hfil
    have hnext : metaNextVersion s.metadata fileName = 1 := by
      simp [metaNextVersion, hlat]
    have hstep : chunkUpload hash genId now s chunks0 fileId chunkNumber totalChunks fileName
        clientId lmRaw bufc =
      chunkFinishSave hash genId now s (aset chunks0 (chunkName fileId chunkNumber) bufc)
        fileId totalChunks fileName clientId lmRaw cs.flatten := by
      simp only [chunkUpload, if_neg hcond, hcount, eq_self_iff_true, if_true, hasm, hgv]
    rw [hstep]
    have hdet : detectConflict s.metadata
        { fileId := fileId, fileName := fileName, version := metaNextVersion s.metadata fileName
          size := cs.flatten.length, checksum := hash cs.flatten, clientId := clientId
          lastModified := lmRaw.getD now, uploadType := some "chunked" } (genId 0) now
        = none := by
      simp only [detectConflict, hlat]
    cases hidx : List.findIdx?
        (fun item => item.fileId = fileId ∧ item.version = metaNextVersion s.metadata fileName)
        s.metadata with
    | none =>
        have key : chunkFinishSave hash genId now s
            (aset chunks0 (chunkName fileId chunkNumber) bufc)
            fileId totalChunks fileName clientId lmRaw cs.flatten =
          (.assembled (metaNextVersion s.metadata fileName),
           { s with files := aset s.files fileName cs.flatten
                    versions := aset s.versions (fileName, metaNextVersion s.metadata fileName)
                      cs.flatten
                    metadata := s.metadata ++ [normalizeMeta
                      { fileId := fileId, fileName := fileName
                        version := metaNextVersion s.metadata fileName
                        size := cs.flatten.length, checksum := hash cs.flatten
                        clientId := clientId, lastModified := lmRaw.getD now
                        uploadType := some "chunked" } now] },
           removeChunks (aset chunks0 (chunkName fileId chunkNumber) bufc) fileId totalChunks)
          := by
          simp only [chunkFinishSave, storageSaveFile, saveMetadataCore, hdet, hidx]
        rw [key, hnext]
        exact ⟨rfl, alookup_aset_self s.files fileName cs.flatten,
          alookup_aset_self s.versions (fileName, 1) cs.flatten⟩
    | some j =>
        have key : chunkFinishSave hash genId now s
            (aset chunks0 (chunkName fileId chunkNumber) bufc)
            fileId totalChunks fileName clientId lmRaw cs.flatten =
          (.assembled (metaNextVersion s.metadata fileName),
           { s with files := aset s.files fileName cs.flatten
                    versions := aset s.versions (fileName, metaNextVersion s.metadata fileName)
                      cs.flatten
                    metadata := s.metadata.set j (normalizeMeta
                      { fileId := fileId, fileName := fileName
                        version := metaNextVersion s.metadata fileName
                        size := cs.flatten.length, checksum := hash cs.flatten
                        clientId := clientId, lastModified := lmRaw.getD now
                        uploadType := some "chunked" } now) },
           removeChunks (aset chunks0 (chunkName fileId chunkNumber) bufc) fileId totalChunks)
          := by
          simp only [chunkFinishSave, storageSaveFile, saveMetadataCore, hdet, hidx]
        rw [key, hnext]
        exact ⟨rfl, alookup_aset_self s.files fileName cs.flatten,
          alookup_aset_self s.versions (fileName, 1) cs.flatten⟩

/-- Witness for C4 at a concrete input: two parts `[1]` and `[2]`
assemble to `[1, 2]`, and posting the completing part stores it. -/
theorem chunk_assembly_roundtrip_witness :
    (assembleRange [("f_1", [1]), ("f_2", [2])] "f" 1 2).map List.flatten = .ok [1, 2] ∧
    (chunkUpload c2hash (fun k => "g" ++ toString k) 0 {} [("f_1", [1])] "f" 2 2 "b.bin" "b"
        (some 0) [2]).1 = .assembled 1 := by
  have h := chunk_assembly_roundtrip "f" [[1], [2]] [("f_1", [1]), ("f_2", [2])]
    (by decide) (by decide) (by decide)
  refine ⟨h.1, ?_⟩
  have h3 := h.2.2 c2hash (fun k => "g" ++ toString k) 0 {} [("f_1", [1])] 2 2 "b.bin" "b"
    (some 0) [2] (by decide) (by decide) (by decide) rfl rfl
  exact h3.1

/-! ## Claim C1 -/

/-- Hash stand-in for the C1 scenarios. -/
def exHash : List Nat → String :=
  fun b => if b = [1] then "h1" else if b = [2] then "h2" else "h0"

/-- Id supply of client b's request. -/
def exGenB : Nat → String := fun k => "b" ++ toString k

/-- Id supply of client c's request. -/
def exGenC : Nat → String := fun k => "c" ++ toString k

/-- Server state after client b's safe upload of `[1]` (lastModified
1000) at wall time 0 on a fresh server. -/
def exS1 : ServerState := (uploadSafe exHash exGenB 0 {} "a.txt" "b" (some 1000) [1]).2

/-- C1 (counterexample): client c's upload of different bytes with an
earlier `lastModified` (500) lands in the window with client b's entry —
two unique `(client_id, checksum)` pairs remain after GC and dedup — yet
the endpoint answers 500 and saves no conflict-marked record for the
loser: the winner materialization's own `saveMetadata` throws `Conflict
detected` (client c vs. the stored client-b record, within 5000 ms), so
the loser branch is never reached. -/
theorem upload_safe_conflict_counterexample :
    (dedupeEntries [] ((alookup (gcWindow exS1.window 1000) "a.txt").getD [] ++
        [mkWinEntry "c" 500 (exHash [2]) [2] (exGenC 0) 1000])).length = 2 ∧
    (uploadSafe exHash exGenC 1000 exS1 "a.txt" "c" (some 500) [2]).1 =
      .err500 "Conflict detected" ∧
    ((uploadSafe exHash exGenC 1000 exS1 "a.txt" "c" (some 500) [2]).2.metadata.all
        (fun m => !m.conflict)) = true := by
  refine ⟨rfl, rfl, rfl⟩

/-- Elements of a stable insertion are the inserted one or old ones. -/
theorem mem_insertByLastModifiedAsc (e : WinEntry) (l : List WinEntry) :
    ∀ y ∈ insertByLastModifiedAsc e l, y = e ∨ y ∈ l := by
  induction l with
  | nil =>
      intro y hy
      rcases List.mem_singleton.mp hy with rfl
      exact Or.inl rfl
  | cons x xs ih =>
      intro y hy
      unfold insertByLastModifiedAsc at hy
      by_cases h : e.lastModified ≤ x.lastModified
      · rw [if_pos h] at hy
        rcases List.mem_cons.mp hy with rfl | hy
        · exact Or.inl rfl
        · exact Or.inr hy
      · rw [if_neg h] at hy
        rcases List.mem_cons.mp hy with rfl | hy
        · exact Or.inr (List.mem_cons_self _ _)
        · rcases ih y hy with h' | h'
          · exact Or.inl h'
          · exact Or.inr (List.mem_cons_of_mem _ h')

/-- Stable insertion preserves sortedness by `lastModified`. -/
theorem pairwise_insertByLastModifiedAsc (e : WinEntry) (l : List WinEntry)
    (h : l.Pairwise (fun a b => a.lastModified ≤ b.lastModified)) :
    (insertByLastModifiedAsc e l).Pairwise
      (fun a b => a.lastModified ≤ b.lastModified) := by
  induction l with
  | nil => simp [insertByLastModifiedAsc]
  | cons x xs ih =>
      unfold insertByLastModifiedAsc
      rcases List.pairwise_cons.mp h with ⟨hx, hxs⟩
      by_cases hc : e.lastModified ≤ x.lastModified
      · rw [if_pos hc]
        refine List.Pairwise.cons ?_ h
        intro y hy
        rcases List.mem_cons.mp hy with rfl | hy
        · exact hc
        · exact le_trans hc (hx y hy)
      · rw [if_neg hc]
        refine List.Pairwise.cons ?_ (ih hxs)
        intro y hy
        rcases mem_insertByLastModifiedAsc e xs y hy with rfl | hy'
        · omega
        · exact hx y hy'

/-- The candidate sort is sorted by `lastModified` ascending. -/
theorem sortByLastModifiedAsc_pairwise (l : List WinEntry) :
    (sortByLastModifiedAsc l).Pairwise
      (fun a b => a.lastModified ≤ b.lastModified) := by
  unfold sortByLastModifiedAsc
  induction l with
  | nil => simp
  | cons x xs ih => exact pairwise_insertByLastModifiedAsc x _ ih

/-- The head of the sorted candidates is the earliest. -/
theorem sorted_head_min (l : List WinEntry) (w : WinEntry) (rest : List WinEntry)
    (h : sortByLastModifiedAsc l = w :: rest) :
    ∀ e ∈ rest, w.lastModified ≤ e.lastModified := by
  have hp := sortByLastModifiedAsc_pairwise l
  rw [h] at hp
  exact (List.pairwise_cons.mp hp).1

/-- Strings with equal character data are equal. -/
theorem string_data_inj (a b : String) (h : a.data = b.data) : a = b := by
  cases a
  cases b
  exact congrArg String.mk h

/-- Cancelling a common front and back factor of a string append. -/
theorem string_append_inj_mid (p c1 c2 s : String)
    (h : p ++ c1 ++ s = p ++ c2 ++ s) : c1 = c2 := by
  have hd : (p ++ c1 ++ s).data = (p ++ c2 ++ s).data := by rw [h]
  simp only [String.data_append] at hd
  have hd2 : p.data ++ (c1.data ++ s.data) = p.data ++ (c2.data ++ s.data) := by
    rw [← List.append_assoc, ← List.append_assoc]
    exact hd
  have h1 : c1.data ++ s.data = c2.data ++ s.data := List.append_cancel_left hd2
  exact string_data_inj c1 c2 (List.append_cancel_right h1)

/-- Distinct losing clients are diverted to distinct conflict file
names. -/
theorem conflictFileNameOf_inj (fileName : String) (c1 c2 : String)
    (h : conflictFileNameOf fileName c1 = conflictFileNameOf fileName c2) : c1 = c2 := by
  unfold conflictFileNameOf at h
  exact string_append_inj_mid (jsStripExt fileName ++ "_conflicted_by_") c1 c2
    (jsExtname fileName) (by simpa [String.append_assoc] using h)

/-- Full specification of the loser loop when it does not throw: the
metadata array is only extended, conflicts and window are untouched,
entries away from the conflict file names are untouched, and every
loser's conflict-marked record and blob are stored and survive to the
final state.  Requires fresh, pairwise-distinct loser file ids and
pairwise-distinct loser client ids. -/
theorem saveLosers_spec (hash : List Nat → String) (genId : Nat → String) (now : Int)
    (fileName : String) :
    ∀ (ls : List WinEntry) (s : ServerState) (i : Nat) (lms : List (Meta × String))
      (s' : ServerState),
    saveLosers hash genId now fileName s ls i = .ok (lms, s') →
    (∀ l ∈ ls, ∀ x ∈ s.metadata, x.fileId ≠ l.fileId) →
    (ls.map (fun l => l.fileId)).Nodup →
    (ls.map (fun l => l.clientId)).Nodup →
    (∃ tail, s'.metadata = s.metadata ++ tail) ∧
    s'.conflicts = s.conflicts ∧
    s'.window = s.window ∧
    (∀ n v, (∀ l ∈ ls, n ≠ conflictFileNameOf fileName l.clientId) →
      alookup s'.versions (n, v) = alookup s.versions (n, v) ∧
      alookup s'.files n = alookup s.files n) ∧
    (∀ l ∈ ls, ∃ m cfn, (m, cfn) ∈ lms ∧
      cfn = conflictFileNameOf fileName l.clientId ∧
      m.fileId = l.fileId ∧ m.fileName = cfn ∧ m.conflict = true ∧
      m.conflictedWith = some fileName ∧ m.size = l.buffer.length ∧
      m.checksum = hash l.buffer ∧ m.clientId = l.clientId ∧
      m ∈ s'.metadata ∧
      alookup s'.versions (cfn, m.version) = some l.buffer ∧
      alookup s'.files cfn = some l.buffer) := by
  intro ls
  induction ls with
  | nil =>
      intro s i lms s' hok _ _ _
      cases hok
      exact ⟨⟨[], (List.append_nil _).symm⟩, rfl, rfl, fun n v _ => ⟨rfl, rfl⟩,
        fun l hl => absurd hl (List.not_mem_nil l)⟩
  | cons loser rest ih =>
      intro s i lms s' hok hids hnid hncl
      simp only [saveLosers, storageSaveFile] at hok
      split at hok
      · exact Except.noConfusion hok
      · rename_i r heq
        split at hok
        · exact Except.noConfusion hok
        · rename_i p hrec
          cases hok
          -- abbreviations
          have hmfresh : ∀ x ∈ s.metadata, x.fileId ≠ loser.fileId :=
            hids loser (List.mem_cons_self _ _)
          obtain ⟨hr1, hr2⟩ := saveMetadataCore_fresh_append s.metadata s.conflicts _ _ now
            r.1 r.2 hmfresh (by rw [← heq])
          simp only [List.map_cons, List.nodup_cons] at hnid hncl
          have hvpos : 1 ≤ metaNextVersion s.metadata
              (conflictFileNameOf fileName loser.clientId) := metaNextVersion_pos _ _
          have hnmver : (r.1).version = metaNextVersion s.metadata
              (conflictFileNameOf fileName loser.clientId) := by
            rw [hr1]
            simp only [normalizeMeta]
            rw [if_neg (by omega)]
          have hids' : ∀ l ∈ rest, ∀ x ∈ r.2, x.fileId ≠ l.fileId := by
            intro l hl x hx
            rw [hr2] at hx
            rcases List.mem_append.mp hx with hx | hx
            · exact hids l (List.mem_cons_of_mem _ hl) x hx
            · rcases List.mem_singleton.mp hx with rfl
              show loser.fileId ≠ l.fileId
              intro heq2
              exact hnid.1 (List.mem_map.mpr ⟨l, hl, heq2.symm⟩)
          obtain ⟨⟨tail, htail⟩, hconf, hwindow, hframe, hlosers⟩ :=
            ih _ (i + 1) p.1 p.2 hrec hids' hnid.2 hncl.2
          refine ⟨?_, hconf, hwindow, ?_, ?_⟩
          · refine ⟨[normalizeMeta
              { fileId := loser.fileId
                fileName := conflictFileNameOf fileName loser.clientId
                version := metaNextVersion s.metadata (conflictFileNameOf fileName loser.clientId)
                size := loser.buffer.length, checksum := hash loser.buffer
                clientId := loser.clientId, lastModified := loser.lastModified
                conflict := true, conflictedWith := some fileName } now] ++ tail, ?_⟩
            rw [htail, hr2, List.append_assoc]
          · intro n v hn
            have hn' : ∀ l ∈ rest, n ≠ conflictFileNameOf fileName l.clientId :=
              fun l hl => hn l (List.mem_cons_of_mem _ hl)
            obtain ⟨hv, hf⟩ := hframe n v hn'
            have hncfn : n ≠ conflictFileNameOf fileName loser.clientId :=
              hn loser (List.mem_cons_self _ _)
            constructor
            · rw [hv]
              exact alookup_aset_other s.versions
                (conflictFileNameOf fileName loser.clientId,
                 metaNextVersion s.metadata (conflictFileNameOf fileName loser.clientId))
                (n, v) loser.buffer (fun he => hncfn (congrArg Prod.fst he))
            · rw [hf]
              exact alookup_aset_other s.files
                (conflictFileNameOf fileName loser.clientId) n loser.buffer hncfn
          · intro l hl
            rcases List.mem_cons.mp hl with rfl | hl
            · -- the head loser
              have hcdist : ∀ l' ∈ rest,
                  conflictFileNameOf fileName l.clientId ≠
                    conflictFileNameOf fileName l'.clientId := by
                intro l' hl' he
                have hcc : l.clientId = l'.clientId := conflictFileNameOf_inj fileName _ _ he
                exact hncl.1 (List.mem_map.mpr ⟨l', hl', hcc.symm⟩)
              obtain ⟨hv, hf⟩ := hframe (conflictFileNameOf fileName l.clientId)
                (r.1).version hcdist
              refine ⟨r.1, conflictFileNameOf fileName l.clientId,
                List.mem_cons_self _ _, rfl, by rw [hr1]; rfl, by rw [hr1]; rfl,
                by rw [hr1]; rfl, by rw [hr1]; rfl, by rw [hr1]; rfl, by rw [hr1]; rfl,
                by rw [hr1]; rfl, ?_, ?_, ?_⟩
              · rw [htail, hr2, hr1]
                exact List.mem_append_left _ (List.mem_append_right _
                  (List.mem_singleton_self _))
              · rw [hv, hnmver]
                exact alookup_aset_self s.versions
                  (conflictFileNameOf fileName l.clientId,
                   metaNextVersion s.metadata (conflictFileNameOf fileName l.clientId))
                  l.buffer
              · rw [hf]
                exact alookup_aset_self s.files
                  (conflictFileNameOf fileName l.clientId) l.buffer
            · obtain ⟨m, cfn', hmem, hcfn', hfid, hfname, hconfl, hcw, hsize, hck, hcl,
                hmeta, hver, hfil⟩ := hlosers l hl
              exact ⟨m, cfn', List.mem_cons_of_mem _ hmem, hcfn', hfid, hfname, hconfl,
                hcw, hsize, hck, hcl, hmeta, hver, hfil⟩

/-- The `s1` of `uploadSafeWindow`: the state after the window has been
garbage-collected and the incoming entry pushed for its file name. -/
def windowPushState (s : ServerState) (fileName : String) (entry : WinEntry) (now : Int) :
    ServerState :=
  { s with
      window := aset (gcWindow s.window now) fileName
        ((alookup (gcWindow s.window now) fileName).getD [] ++ [entry]) }

/-- C1 (amended): for a safe upload whose window — after garbage
collection and dedup by `(client_id, checksum)` — holds at least two
unique pairs, the engine sorts the candidates by `last_modified`
ascending and promotes the earliest as winner; *provided* the winner
materialization and the loser saves do not themselves throw the
metadata-level `Conflict` (they can, see the counterexample) and the
losers carry fresh, distinct file ids and distinct client ids, every
other candidate's blob is saved under
`<base>_conflicted_by_<client_id><ext>` together with a metadata record
with `conflict=true` and `conflicted_with=file_name`, and the endpoint
answers 200 to the winner's client and 409 to a losing one. -/
theorem upload_safe_window_conflict_amended
    (hash : List Nat → String) (genId : Nat → String) (now : Int) (s : ServerState)
    (fileName clientId : String) (lmRaw : Option Int) (buf : List Nat)
    (winner : WinEntry) (losers : List WinEntry) (wm : Meta) (s2 s3 : ServerState)
    (lms : List (Meta × String))
    (hname : fileName ≠ "") (hcid : clientId ≠ "")
    (hdup : ∀ lm, latestOf s.metadata fileName = some lm → lm.checksum ≠ hash buf)
    (hmulti : (dedupeEntries []
        ((alookup (gcWindow s.window now) fileName).getD [] ++
          [mkWinEntry clientId (lmRaw.getD now) (hash buf) buf (genId 0) now])).length > 1)
    (hsort : sortByLastModifiedAsc (dedupeEntries []
        ((alookup (gcWindow s.window now) fileName).getD [] ++
          [mkWinEntry clientId (lmRaw.getD now) (hash buf) buf (genId 0) now]))
      = winner :: losers)
    (hwin : materializeWinner hash genId now
        (windowPushState s fileName
          (mkWinEntry clientId (lmRaw.getD now) (hash buf) buf (genId 0) now) now)
        fileName winner = .ok (wm, s2))
    (hlos : saveLosers hash genId now fileName s2 losers 0 = .ok (lms, s3))
    (hids : ∀ l ∈ losers, ∀ x ∈ s2.metadata, x.fileId ≠ l.fileId)
    (hnid : (losers.map (fun l => l.fileId)).Nodup)
    (hncl : (losers.map (fun l => l.clientId)).Nodup) :
    (∀ e ∈ losers, winner.lastModified ≤ e.lastModified) ∧
    (uploadSafe hash genId now s fileName clientId lmRaw buf).1 =
      (if clientId = wm.clientId then
        UploadResp.winnerOk wm.version wm (genId 1)
      else
        UploadResp.loser409 wm.clientId wm.lastModified
          ((lms.find? (fun q => q.1.clientId = clientId)).map (·.2)) (genId 1)) ∧
    (∀ l ∈ losers, ∃ m cfn, (m, cfn) ∈ lms ∧
      cfn = conflictFileNameOf fileName l.clientId ∧
      m.fileName = cfn ∧ m.conflict = true ∧ m.conflictedWith = some fileName ∧
      m.checksum = hash l.buffer ∧ m.clientId = l.clientId ∧
      m ∈ (uploadSafe hash genId now s fileName clientId lmRaw buf).2.metadata ∧
      alookup (uploadSafe hash genId now s fileName clientId lmRaw buf).2.versions
        (cfn, m.version) = some l.buffer ∧
      alookup (uploadSafe hash genId now s fileName clientId lmRaw buf).2.files cfn =
        some l.buffer) := by
  have hcond : ¬ (fileName = "" ∨ clientId = "") := by
    rintro (h | h)
    · exact hname h
    · exact hcid h
  have key2 : uploadSafeWindow hash genId now s fileName clientId
      { fileId := genId 0, fileName := fileName, version := 0, size := buf.length
        checksum := hash buf, clientId := clientId, lastModified := lmRaw.getD now } buf =
      uploadSafeConflict hash genId now
        (windowPushState s fileName
          (mkWinEntry clientId (lmRaw.getD now) (hash buf) buf (genId 0) now) now)
        fileName clientId winner losers := by
    simp only [uploadSafeWindow]
    rw [if_pos hmulti, hsort]
    rfl
  have key : uploadSafe hash genId now s fileName clientId lmRaw buf =
      uploadSafeConflict hash genId now
        (windowPushState s fileName
          (mkWinEntry clientId (lmRaw.getD now) (hash buf) buf (genId 0) now) now)
        fileName clientId winner losers := by
    cases hl : latestOf s.metadata fileName with
    | none =>
        simp only [uploadSafe, if_neg hcond, hl]
        exact key2
    | some lm =>
        simp only [uploadSafe, if_neg hcond, hl]
        rw [if_neg (hdup lm hl)]
        exact key2
  have hresp : (uploadSafeConflict hash genId now
      (windowPushState s fileName
        (mkWinEntry clientId (lmRaw.getD now) (hash buf) buf (genId 0) now) now)
      fileName clientId winner losers).1 =
      (if clientId = wm.clientId then
        UploadResp.winnerOk wm.version wm (genId 1)
      else
        UploadResp.loser409 wm.clientId wm.lastModified
          ((lms.find? (fun q => q.1.clientId = clientId)).map (·.2)) (genId 1)) := by
    simp only [uploadSafeConflict, hwin, hlos]
    by_cases h : clientId = wm.clientId
    · rw [if_pos h, if_pos h]
    · rw [if_neg h, if_neg h]
  have hmeta : (uploadSafeConflict hash genId now
      (windowPushState s fileName
        (mkWinEntry clientId (lmRaw.getD now) (hash buf) buf (genId 0) now) now)
      fileName clientId winner losers).2.metadata = s3.metadata := by
    simp only [uploadSafeConflict, hwin, hlos]
    by_cases h : clientId = wm.clientId
    · rw [if_pos h]
    · rw [if_neg h]
  have hvers : (uploadSafeConflict hash genId now
      (windowPushState s fileName
        (mkWinEntry clientId (lmRaw.getD now) (hash buf) buf (genId 0) now) now)
      fileName clientId winner losers).2.versions = s3.versions := by
    simp only [uploadSafeConflict, hwin, hlos]
    by_cases h : clientId = wm.clientId
    · rw [if_pos h]
    · rw [if_neg h]
  have hfiles : (uploadSafeConflict hash genId now
      (windowPushState s fileName
        (mkWinEntry clientId (lmRaw.getD now) (hash buf) buf (genId 0) now) now)
      fileName clientId winner losers).2.files = s3.files := by
    simp only [uploadSafeConflict, hwin, hlos]
    by_cases h : clientId = wm.clientId
    · rw [if_pos h]
    · rw [if_neg h]
  refine ⟨sorted_head_min _ winner losers hsort, ?_, ?_⟩
  · rw [key]
    exact hresp
  · intro l hl
    obtain ⟨m, cfn, hmem, hcfn, hfid, hfname, hconfl, hcw, hsize, hck, hcl, hmetaMem,
      hverLk, hfilLk⟩ :=
      (saveLosers_spec hash genId now fileName losers s2 0 lms s3 hlos hids hnid hncl).2.2.2.2
        l hl
    refine ⟨m, cfn, hmem, hcfn, hfname, hconfl, hcw, hck, hcl, ?_, ?_, ?_⟩
    · rw [key, hmeta]
      exact hmetaMem
    · rw [key, hvers]
      exact hverLk
    · rw [key, hfiles]
      exact hfilLk

/-- The record stored by client b's first upload in the C1 scenario. -/
def c1m1 : Meta :=
  { fileId := "b0", fileName := "a.txt", version := 1, size := 1
    checksum := "h1", clientId := "b", lastModified := 1000
    createdAt := some 0, updatedAt := some 0 }

/-- Witness for C1 (amended) at a concrete input: client c uploads
different bytes with a later `lastModified`; client b's earlier entry
wins (reused as latest) and c receives 409 with its conflict file name. -/
theorem upload_safe_window_conflict_amended_witness :
    (uploadSafe exHash exGenC 1000 exS1 "a.txt" "c" (some 2000) [2]).1 =
      .loser409 "b" 1000 (some "a_conflicted_by_c.txt") "c1" := by
  have h := upload_safe_window_conflict_amended exHash exGenC 1000 exS1 "a.txt" "c"
    (some 2000) [2] _ _ c1m1 _ _ _
    (by decide) (by decide)
    (by intro lm hlm
        have h1 : latestOf exS1.metadata "a.txt" = some c1m1 := rfl
        rw [h1] at hlm
        cases hlm
        decide)
    (by decide) rfl rfl rfl (by decide) (by decide) (by decide)
  rw [h.2.1]
  rfl
